import Mathlib

/-!
# Verification of the `jv` JSON viewer core

Shallow embedding of the core of the `jv` repository (a terminal JSON/text
viewer) and proofs about it.  The embedding covers:

* `AsciiLine` (src/widgets/ascii_line.rs): ASCII text buffer with a sparse
  per-character screen-width map (tabs are wide).  Rust `String`s are modelled
  as `List Char` (the inputs are ASCII, so bytes = chars), the `BTreeMap` as an
  association list.
* `View` (src/widgets/view.rs): the viewport engine with its navigation
  operations.  Machine integers (`usize`, `u16`) are modelled as `Nat`;
  Rust `saturating_sub` and in-range `-` both become truncated `Nat`
  subtraction.  `self.lines[i]` indexing (which panics when out of bounds;
  the View's invariants keep it in bounds in every reachable state) is
  modelled with `List.getD`.
* The JSON tokenizer `parse_json_lines` (src/json/parser.rs) over a JSON value
  tree, with `serde_json` objects modelled as key/value lists (serde numbers
  are modelled by their integer rendering, which is always ASCII).
* The path index `index` (src/json/index.rs): the `HashMap` becomes an
  association list where an insert conses in front (so `List.lookup` returns
  the most recent insert, matching `HashMap::insert` overwrite semantics), and
  the `Vec::last_mut().unwrap()` / `Vec::pop().unwrap()` calls, which panic on
  an empty stack, make the modelled function return `Option`.
-/

namespace JV

/-! ## AsciiLine (src/widgets/ascii_line.rs) -/

/-- Rust `u8::is_ascii` / `str::is_ascii`: every byte (char) is below 128. -/
def isAsciiChar (c : Char) : Bool := c.toNat < 128

/-- `AsciiLine` from src/widgets/ascii_line.rs: text plus the sparse map from
character index to screen width (entries exist only for tabs). -/
structure AsciiLine where
  l : List Char
  charWidths : List (Nat × Nat)
  firstCol : Nat
deriving Repr, DecidableEq

/-- The width-map building loop inside `AsciiLine::indent`: walk the chars
left to right keeping the absolute column `col`; a tab at index `i` gets width
`8 - col % 8` and is recorded. -/
def indentGo (col i : Nat) : List Char → List (Nat × Nat)
  | [] => []
  | c :: cs =>
    if c = '\t' then
      (i, 8 - col % 8) :: indentGo (col + (8 - col % 8)) (i + 1) cs
    else
      indentGo (col + 1) (i + 1) cs

/-- `AsciiLine::indent`: clear and fully recompute the width map assuming the
line starts at absolute column `firstCol`. -/
def AsciiLine.indent (a : AsciiLine) (firstCol : Nat) : AsciiLine :=
  { a with charWidths := indentGo firstCol 0 a.l, firstCol := firstCol }

/-- `AsciiLine::new`: succeeds (and runs `indent 0`) iff the text is all
ASCII; otherwise the original input is returned as the error. -/
def AsciiLine.new (l : List Char) : Except (List Char) AsciiLine :=
  if l.all isAsciiChar then
    Except.ok (AsciiLine.indent ⟨l, [], 0⟩ 0)
  else
    Except.error l

/-- The success path of `AsciiLine::new` (used for token text that the Rust
code `unwrap`s because it is ASCII by construction). -/
def asciiLineOf (l : List Char) : AsciiLine :=
  AsciiLine.indent ⟨l, [], 0⟩ 0

/-- `AsciiLine::chars_count`: the text length (ASCII, so bytes = chars). -/
def AsciiLine.chars_count (a : AsciiLine) : Nat := a.l.length

/-- `AsciiLine::char_width`: the stored width, defaulting to 1. -/
def AsciiLine.char_width (a : AsciiLine) (idx : Nat) : Nat :=
  (a.charWidths.lookup idx).getD 1

/-! ## View (src/widgets/view.rs) -/

/-- The `View` state: the owned lines plus frame/cursor bookkeeping.  All
claims exercise it over `AsciiLine` documents, so it is specialized to the
`AsciiLine` implementation of the `Line` trait. -/
structure View where
  lines : List AsciiLine
  width : Nat
  height : Nat
  numLinesPadding : Nat
  lineCharIx : Nat
  maxLineCharIx : Nat
  frameStartRow : Nat
  frameStartCharIx : Nat
  cursorRow : Nat
  cursorCol : Nat
deriving Repr, DecidableEq

def emptyAsciiLine : AsciiLine := ⟨[], [], 0⟩

/-- `View::num_column_width`: line-number gutter plus `" | "`. -/
def View.num_column_width (v : View) : Nat := v.numLinesPadding + 3

/-- The line under the cursor, `self.lines[frame_start_row + cursor_row]`
(Rust panics when out of bounds; modelled with a default). -/
def View.currentLineD (v : View) : AsciiLine :=
  v.lines.getD (v.frameStartRow + v.cursorRow) emptyAsciiLine

/-- `View::col`. -/
def View.col (v : View) : Nat := v.lineCharIx

/-- The backward scan loop of `View::center_horizontally`:
`while fsc > min_start { let cw = char_width(fsc); if w + cw >= text_width
{ break } w += cw; fsc -= 1 }`, returning the final `(fsc, w)`.  Each
iteration decrements `fsc` by one, and at `fsc = 0` the guard
`fsc > min_start` is false, so the recursion is structural on `fsc`. -/
def centerLoop (row : AsciiLine) (textWidth minStart : Nat) : Nat → Nat → Nat × Nat
  | 0, w => (0, w)
  | fsc + 1, w =>
    if minStart < fsc + 1 ∧ w + row.char_width (fsc + 1) < textWidth then
      centerLoop row textWidth minStart fsc (w + row.char_width (fsc + 1))
    else
      (fsc + 1, w)

/-- `View::center_horizontally`. -/
def View.center_horizontally (v : View) : View :=
  let textWidth := v.width - v.num_column_width
  let row := v.currentLineD
  let c := min v.maxLineCharIx (row.chars_count - 1)
  let minStart := if c < v.frameStartCharIx + v.width then v.frameStartCharIx else 0
  let p := centerLoop row textWidth minStart c 0
  { v with frameStartCharIx := p.1, cursorCol := p.2 + row.char_width p.1 - 1 }

/-- `View::cap_line_char_ix`. -/
def View.cap_line_char_ix (v : View) : View :=
  { v with lineCharIx := min v.maxLineCharIx (v.currentLineD.chars_count - 1) }

/-- `View::goto` (0-based). -/
def View.goto (v : View) (r c : Nat) : View :=
  if v.lines.isEmpty then v
  else
    let r := min r (v.lines.length - 1)
    let v :=
      if r < v.frameStartRow ∨ v.frameStartRow + v.height ≤ r then
        { v with frameStartRow := r - (v.height / 2 - 1) }
      else v
    let v := { v with cursorRow := r - v.frameStartRow }
    let c := min c (v.currentLineD.chars_count - 1)
    let v := { v with maxLineCharIx := c }
    v.cap_line_char_ix.center_horizontally

/-- `View::new`: collect the lines, indent them all by the gutter width, then
`goto(0, 0)`. -/
def View.new (size : Nat × Nat) (lines : List AsciiLine) : View :=
  let numLinesPadding := (Nat.repr lines.length).length
  let v : View :=
    { lines := lines
      numLinesPadding := numLinesPadding
      cursorCol := 0
      cursorRow := 0
      lineCharIx := 0
      frameStartCharIx := 0
      frameStartRow := 0
      height := size.2
      maxLineCharIx := 0
      width := size.1 }
  let textPadding := v.num_column_width
  let v := { v with lines := v.lines.map (fun a => AsciiLine.indent a textPadding) }
  v.goto 0 0

/-- `View::move_right`. -/
def View.move_right (v : View) : View :=
  if v.lines.isEmpty then v
  else
    let row := v.currentLineD
    if v.lineCharIx + 1 ≥ row.chars_count then v
    else
      let v := { v with lineCharIx := v.lineCharIx + 1 }
      let v := { v with maxLineCharIx := v.lineCharIx }
      v.center_horizontally

/-- `View::move_left`. -/
def View.move_left (v : View) : View :=
  if v.lines.isEmpty then v
  else if v.lineCharIx = 0 then v
  else
    let v := { v with lineCharIx := v.lineCharIx - 1 }
    let v := { v with maxLineCharIx := v.lineCharIx }
    v.center_horizontally

/-- `View::move_up`. -/
def View.move_up (v : View) : View :=
  if v.lines.isEmpty then v
  else
    let v :=
      if v.cursorRow = 0 then { v with frameStartRow := v.frameStartRow - 1 }
      else { v with cursorRow := v.cursorRow - 1 }
    v.cap_line_char_ix.center_horizontally

/-- `View::move_down`. -/
def View.move_down (v : View) : View :=
  if v.frameStartRow + v.cursorRow + 1 ≥ v.lines.length then v
  else
    let v := { v with cursorRow := min (v.cursorRow + 1) (v.lines.length - 1) }
    let v :=
      if v.cursorRow ≥ v.height then
        { v with cursorRow := v.height - 1,
                 frameStartRow := min (v.frameStartRow + 1) (v.lines.length - 1) }
      else v
    v.cap_line_char_ix.center_horizontally

/-- `View::move_to_sol`. -/
def View.move_to_sol (v : View) : View :=
  if v.lines.isEmpty then v
  else
    let v := { v with maxLineCharIx := 0, lineCharIx := 0 }
    v.center_horizontally

/-- `View::move_to_eol`. -/
def View.move_to_eol (v : View) : View :=
  if v.lines.isEmpty then v
  else
    let v := { v with lineCharIx := v.currentLineD.chars_count - 1 }
    let v := { v with maxLineCharIx := v.lineCharIx }
    v.center_horizontally

/-- `View::page_up`. -/
def View.page_up (v : View) : View :=
  if v.lines.isEmpty then v
  else
    let v :=
      if v.frameStartRow = 0 then { v with cursorRow := 0 }
      else { v with frameStartRow := v.frameStartRow - v.height }
    v.cap_line_char_ix.center_horizontally

/-- `View::page_down`. -/
def View.page_down (v : View) : View :=
  if v.lines.isEmpty then v
  else
    let v := { v with frameStartRow := v.frameStartRow + v.height }
    let v :=
      if v.frameStartRow + v.cursorRow ≥ v.lines.length then
        { v with frameStartRow := v.lines.length - 1, cursorRow := 0 }
      else v
    v.cap_line_char_ix.center_horizontally

/-- The navigation commands the UI loop can issue to a `View`. -/
inductive NavOp where
  | right | left | up | down | sol | eol | pageUp | pageDown
  | go (r c : Nat)
deriving Repr, DecidableEq

def applyOp (v : View) : NavOp → View
  | .right => v.move_right
  | .left => v.move_left
  | .up => v.move_up
  | .down => v.move_down
  | .sol => v.move_to_sol
  | .eol => v.move_to_eol
  | .pageUp => v.page_up
  | .pageDown => v.page_down
  | .go r c => v.goto r c

/-- A `View` state reachable in the program: constructed by `View::new` and
then mutated only through navigation calls. -/
def Reachable (v : View) : Prop :=
  ∃ (size : Nat × Nat) (lines : List AsciiLine) (ops : List NavOp),
    v = ops.foldl applyOp (View.new size lines)

/-! ## C1: navigation over an empty document is a no-op -/

/-- **C1.** For a `View` over an empty document, every navigation operation
returns normally (the embedding is total at those states: every early-return
guard fires before any line indexing) and leaves the state unchanged. -/
theorem empty_doc_nav_noop (v : View) (h : v.lines = []) :
    v.move_right = v ∧ v.move_left = v ∧ v.move_up = v ∧ v.move_down = v ∧
    v.move_to_sol = v ∧ v.move_to_eol = v ∧ v.page_up = v ∧ v.page_down = v ∧
    ∀ r c, v.goto r c = v := by
  refine ⟨?_, ?_, ?_, ?_, ?_, ?_, ?_, ?_, ?_⟩ <;>
    simp [View.move_right, View.move_left, View.move_up, View.move_down,
      View.move_to_sol, View.move_to_eol, View.page_up, View.page_down,
      View.goto, h]

/-- Witness for C1 at a concrete empty-document view. -/
theorem empty_doc_nav_noop_witness :
    (View.new (80, 23) []).lines = [] ∧
      (View.new (80, 23) []).goto 5 7 = View.new (80, 23) [] :=
  ⟨by decide, (empty_doc_nav_noop (View.new (80, 23) []) (by decide)).2.2.2.2.2.2.2.2 5 7⟩

/-! ## C8: AsciiLine construction rejects exactly non-ASCII input -/

/-- **C8.** `AsciiLine::new` fails iff the input contains a non-ASCII
character, failure always returns exactly the original input, and the example:
building from `"café"` fails returning `"café"`. -/
theorem ascii_line_new_err_iff (s : List Char) :
    ((∃ c ∈ s, ¬ isAsciiChar c) ↔ AsciiLine.new s = Except.error s) ∧
      (∀ e, AsciiLine.new s = Except.error e → e = s) ∧
      AsciiLine.new "café".data = Except.error "café".data := by
  refine ⟨?_, ?_, by rfl⟩ <;> unfold AsciiLine.new <;>
    rcases h : s.all isAsciiChar with _ | _ <;>
    simp_all [List.all_eq_true]

/-- Witness for C8 at the concrete input `"café"`. -/
theorem ascii_line_new_err_iff_witness :
    (∃ c ∈ "café".data, ¬ isAsciiChar c) ∧
      AsciiLine.new "café".data = Except.error "café".data :=
  ⟨⟨'é', by decide, by decide⟩, (ascii_line_new_err_iff "café".data).2.2⟩

/-! ## C6: character widths after `indent` -/

/-- One step of the running-column update in the `AsciiLine::indent` loop. -/
def advanceCol (col : Nat) (c : Char) : Nat :=
  if c = '\t' then col + (8 - col % 8) else col + 1

/-- Absolute column at which character `i` starts, per the `indent` loop. -/
def colAt (col : Nat) (cs : List Char) (i : Nat) : Nat :=
  (cs.take i).foldl advanceCol col

lemma lookup_cons_of_ne {k a b : Nat} {l : List (Nat × Nat)} (h : (k == a) = false) :
    List.lookup k ((a, b) :: l) = List.lookup k l := by
  simp [List.lookup, h]

lemma lookup_indentGo_of_lt (cs : List Char) :
    ∀ col i0 j, j < i0 → (indentGo col i0 cs).lookup j = none := by
  induction cs with
  | nil => intro col i0 j h; rfl
  | cons c cs ih =>
    intro col i0 j h
    unfold indentGo
    by_cases hc : c = '\t'
    · have hne : (j == i0) = false := by simp [Nat.ne_of_lt h]
      rw [if_pos hc, lookup_cons_of_ne hne]
      exact ih _ _ _ (Nat.lt_succ_of_lt h)
    · rw [if_neg hc]
      exact ih _ _ _ (Nat.lt_succ_of_lt h)

lemma lookup_indentGo (cs : List Char) :
    ∀ col i0 i, (hi : i < cs.length) →
      (indentGo col i0 cs).lookup (i0 + i) =
        if cs[i] = '\t' then some (8 - (colAt col cs i) % 8) else none := by
  induction cs with
  | nil => intro col i0 i hi; exact absurd hi (Nat.not_lt_zero i)
  | cons c cs ih =>
    intro col i0 i hi
    cases i with
    | zero =>
      unfold indentGo
      by_cases hc : c = '\t'
      · simp [hc, List.lookup, colAt]
      · simp [hc, lookup_indentGo_of_lt cs _ _ _ (Nat.lt_succ_self i0)]
    | succ i =>
      have hi2 : i < cs.length := Nat.lt_of_succ_lt_succ hi
      have hshift : i0 + (i + 1) = (i0 + 1) + i := by omega
      have hcol : ∀ col2, colAt col2 (c :: cs) (i + 1) = colAt (advanceCol col2 c) cs i := by
        intro col2
        simp [colAt, List.take_succ_cons]
      have hget : (c :: cs)[i + 1] = cs[i] := rfl
      unfold indentGo
      by_cases hc : c = '\t'
      · have hne : (i0 + (i + 1) == i0) = false := by simp
        rw [if_pos hc, lookup_cons_of_ne hne, hshift, hget, hcol,
          ih _ _ _ hi2]
        simp [advanceCol, hc]
      · rw [if_neg hc, hshift, hget, hcol, ih _ _ _ hi2]
        simp [advanceCol, hc]

lemma char_width_indent (a0 : AsciiLine) (fc i : Nat) (hi : i < a0.l.length) :
    (a0.indent fc).char_width i =
      if a0.l[i] = '\t' then 8 - (colAt fc a0.l i) % 8 else 1 := by
  unfold AsciiLine.indent AsciiLine.char_width
  have h := lookup_indentGo a0.l fc 0 i hi
  rw [Nat.zero_add] at h
  simp only [h]
  by_cases hc : a0.l[i] = '\t' <;> simp [hc]

lemma colAt_eq_sum (a0 : AsciiLine) (fc : Nat) :
    ∀ i, i ≤ a0.l.length →
      colAt fc a0.l i = fc + (((List.range i).map ((a0.indent fc).char_width)).sum) := by
  intro i
  induction i with
  | zero => intro _; simp [colAt]
  | succ i ih =>
    intro h
    have hi : i < a0.l.length := Nat.lt_of_succ_le h
    have htake : a0.l.take (i + 1) = a0.l.take i ++ [a0.l[i]] := by
      rw [List.take_succ, List.getElem?_eq_getElem hi]
      rfl
    have hstep : colAt fc a0.l (i + 1) = advanceCol (colAt fc a0.l i) a0.l[i] := by
      unfold colAt
      rw [htake, List.foldl_append]
      rfl
    have hsum : ((List.range (i + 1)).map ((a0.indent fc).char_width)).sum =
        ((List.range i).map ((a0.indent fc).char_width)).sum +
          (a0.indent fc).char_width i := by
      rw [List.range_succ]
      simp
    rw [hstep, hsum, ih (Nat.le_of_lt hi), char_width_indent a0 fc i hi]
    by_cases hc : a0.l[i] = '\t' <;> simp [advanceCol, hc] <;> omega

/-- **C6.** After `indent(first_col)`, `char_width(i)` is 1 for non-tab
characters and `8 - ((first_col + sum of widths of preceding chars) % 8)` for
a tab; and for `"\tA\tBB"` with `first_col = 0`, `char_width 0 = 8` and
`char_width 2 = 7`. -/
theorem char_width_tab_stop (a0 : AsciiLine) (fc i : Nat) (hi : i < a0.l.length) :
    ((¬ a0.l[i] = '\t') → (a0.indent fc).char_width i = 1) ∧
      (a0.l[i] = '\t' →
        (a0.indent fc).char_width i =
          8 - ((fc + (((List.range i).map ((a0.indent fc).char_width)).sum)) % 8)) ∧
      (asciiLineOf "\tA\tBB".data).char_width 0 = 8 ∧
      (asciiLineOf "\tA\tBB".data).char_width 2 = 7 := by
  refine ⟨?_, ?_, by decide, by decide⟩ <;> intro h <;>
    rw [char_width_indent a0 fc i hi] <;>
    simp [h, ← colAt_eq_sum a0 fc i (Nat.le_of_lt hi)]

/-- Witness for C6: the first tab of `"\tA\tBB"` at `first_col = 0` has width
8, derived by instantiating `char_width_tab_stop`. -/
theorem char_width_tab_stop_witness :
    (AsciiLine.indent ⟨"\tA\tBB".data, [], 0⟩ 0).char_width 0 = 8 := by
  have h := (char_width_tab_stop ⟨"\tA\tBB".data, [], 0⟩ 0 0 (by decide)).2.1 (by decide)
  simpa using h

/-! ## Field-preservation facts for the View helpers -/

@[simp] lemma cap_lines (v : View) : (v.cap_line_char_ix).lines = v.lines := rfl
@[simp] lemma cap_frameStartRow (v : View) :
    (v.cap_line_char_ix).frameStartRow = v.frameStartRow := rfl
@[simp] lemma cap_cursorRow (v : View) : (v.cap_line_char_ix).cursorRow = v.cursorRow := rfl
@[simp] lemma cap_maxLineCharIx (v : View) :
    (v.cap_line_char_ix).maxLineCharIx = v.maxLineCharIx := rfl
@[simp] lemma cap_lineCharIx (v : View) :
    (v.cap_line_char_ix).lineCharIx =
      min v.maxLineCharIx (v.currentLineD.chars_count - 1) := rfl
@[simp] lemma center_lines (v : View) : (v.center_horizontally).lines = v.lines := rfl
@[simp] lemma center_frameStartRow (v : View) :
    (v.center_horizontally).frameStartRow = v.frameStartRow := rfl
@[simp] lemma center_cursorRow (v : View) :
    (v.center_horizontally).cursorRow = v.cursorRow := rfl
@[simp] lemma center_maxLineCharIx (v : View) :
    (v.center_horizontally).maxLineCharIx = v.maxLineCharIx := rfl
@[simp] lemma center_lineCharIx (v : View) :
    (v.center_horizontally).lineCharIx = v.lineCharIx := rfl
@[simp] lemma center_height (v : View) : (v.center_horizontally).height = v.height := rfl
@[simp] lemma center_currentLineD (v : View) :
    (v.center_horizontally).currentLineD = v.currentLineD := rfl
@[simp] lemma cap_currentLineD (v : View) :
    (v.cap_line_char_ix).currentLineD = v.currentLineD := rfl

/-! ## C4: `goto` recentering -/

/-- **C4 (amended).** For a non-empty document (and a terminal of height at
least 2, so that the Rust `usize` expression `height / 2 - 1` does not
underflow), when the clamped target row lies outside the current vertical
frame, `goto` recenters to `frame_start_row = row - (height / 2 - 1)`
(saturating at 0) — not to `row - height / 2` as claimed. -/
theorem goto_recenter (v : View) (r c : Nat) (hne : v.lines ≠ [])
    (hh : 2 ≤ v.height)
    (hout : min r (v.lines.length - 1) < v.frameStartRow ∨
      v.frameStartRow + v.height ≤ min r (v.lines.length - 1)) :
    (v.goto r c).frameStartRow = min r (v.lines.length - 1) - (v.height / 2 - 1) := by
  unfold View.goto
  rw [if_neg (by simp [hne])]
  dsimp only
  rw [if_pos hout]
  simp

/-- The document for the C4/C5 concrete scenarios. -/
def c4view : View :=
  View.new (20, 4)
    (["line 1", "line 2", "line 3", "line 4", "line 5"].map (fun s => asciiLineOf s.data))

/-- C4 counterexample: with 5 lines and height 4, `goto(4, 0)` from the
initial state recenters to `frame_start_row = 3`, while the claim's formula
`row - height/2` (clamped at 0) predicts 2. -/
theorem goto_recenter_counterexample :
    c4view.lines ≠ [] ∧
      c4view.frameStartRow + c4view.height ≤ min 4 (c4view.lines.length - 1) ∧
      (c4view.goto 4 0).frameStartRow = 3 ∧
      ¬((c4view.goto 4 0).frameStartRow = min 4 (c4view.lines.length - 1) - c4view.height / 2) := by
  refine ⟨by decide, by decide, by decide, by decide⟩

/-- Witness for C4 (amended) at the concrete 5-line document. -/
theorem goto_recenter_witness :
    (c4view.goto 4 0).frameStartRow = min 4 (c4view.lines.length - 1) - (c4view.height / 2 - 1) :=
  goto_recenter c4view 4 0 (by decide) (by decide) (Or.inr (by decide))

/-! ## C5: sticky column across vertical moves -/

/-- The document of the sticky-column scenario:
`["a very long line", "", "line 3"]` in a 20×4 view. -/
def c5view : View :=
  View.new (20, 4) (["a very long line", "", "line 3"].map (fun s => asciiLineOf s.data))

/-- **C5.** `move_down`/`move_up` preserve `max_line_char_ix` and snap
`line_char_ix` to `min(max_line_char_ix, target_line.chars_count() - 1)`;
and in the concrete scenario, after `goto(0,5)` a `move_down` lands on column
0 of the empty line and a further `move_down` restores column 5 on
`"line 3"`. -/
theorem vertical_sticky_column :
    (∀ v : View, (v.move_down).maxLineCharIx = v.maxLineCharIx) ∧
      (∀ v : View, (v.move_up).maxLineCharIx = v.maxLineCharIx) ∧
      (∀ v : View, v.frameStartRow + v.cursorRow + 1 < v.lines.length →
        (v.move_down).lineCharIx =
          min v.maxLineCharIx ((v.move_down).currentLineD.chars_count - 1)) ∧
      (∀ v : View, v.lines ≠ [] →
        (v.move_up).lineCharIx =
          min v.maxLineCharIx ((v.move_up).currentLineD.chars_count - 1)) ∧
      (c5view.goto 0 5).col = 5 ∧
      ((c5view.goto 0 5).move_down).col = 0 ∧
      ((c5view.goto 0 5).move_down).currentLineD.l = [] ∧
      (((c5view.goto 0 5).move_down).move_down).col = 5 ∧
      (((c5view.goto 0 5).move_down).move_down).currentLineD.l = "line 3".data := by
  refine ⟨?_, ?_, ?_, ?_, by decide, by decide, by decide, by decide, by decide⟩
  · intro v
    unfold View.move_down
    dsimp only
    split_ifs <;> simp
  · intro v
    unfold View.move_up
    dsimp only
    split_ifs <;> simp
  · intro v h
    unfold View.move_down
    rw [if_neg (by omega)]
    dsimp only
    split_ifs <;> simp
  · intro v h
    unfold View.move_up
    rw [if_neg (by simp [h])]
    dsimp only
    split_ifs <;> simp

/-- Witness for C5: the snap equation instantiated after `goto(0, 5)` on the
concrete document. -/
theorem vertical_sticky_column_witness :
    ((c5view.goto 0 5).move_down).lineCharIx =
      min (c5view.goto 0 5).maxLineCharIx
        (((c5view.goto 0 5).move_down).currentLineD.chars_count - 1) :=
  vertical_sticky_column.2.2.1 (c5view.goto 0 5) (by decide)

/-! ## JSON values and tokens (src/json/mod.rs, src/json/parser.rs)

`serde_json::Value` is modelled by `JValue`; objects become key/value lists
(`serde_json`'s map iteration order is whatever the parser produced — the
tokenizer sorts explicitly, so the model keeps the raw list).  Numbers are
modelled by integers together with their `to_string` rendering (always
ASCII). -/

inductive JValue where
  | null
  | bool (b : Bool)
  | num (n : Int)
  | str (s : List Char)
  | arr (vs : List JValue)
  | obj (ms : List (List Char × JValue))
deriving Repr

inductive JsonTokenTag where
  | ObjectStart | ObjectEnd | ArrayStart | ArrayEnd | Colon | Comma
  | Null | Bool | Number | String | ObjectKey | Whitespace | Ref
deriving Repr, DecidableEq

structure JsonToken where
  tag : JsonTokenTag
  text : AsciiLine
deriving Repr, DecidableEq

structure JsonLine where
  tokens : List JsonToken
deriving Repr, DecidableEq

/-- `JsonToken::ws`: `s` spaces.  (The Rust code `unwrap`s `AsciiLine::new`,
which always succeeds here because the text is ASCII by construction; same
for the other infallible constructors below.) -/
def JsonToken.ws (s : Nat) : JsonToken :=
  ⟨JsonTokenTag.Whitespace, asciiLineOf (List.replicate s ' ')⟩

def JsonToken.bool (b : Bool) : JsonToken :=
  ⟨JsonTokenTag.Bool, asciiLineOf (if b then "true".data else "false".data)⟩

def JsonToken.null : JsonToken := ⟨JsonTokenTag.Null, asciiLineOf "null".data⟩

def JsonToken.number (n : Int) : JsonToken :=
  ⟨JsonTokenTag.Number, asciiLineOf (toString n).data⟩

/-- `JsonToken::string`: tag is `Ref` iff the value starts with `"#/"`; the
text is the value wrapped in quotes, and a non-ASCII value is the error. -/
def JsonToken.string (s : List Char) : Except (List Char) JsonToken :=
  let tag := if s.take 2 = "#/".data then JsonTokenTag.Ref else JsonTokenTag.String
  match AsciiLine.new ('"' :: (s ++ ['"'])) with
  | Except.ok t => Except.ok ⟨tag, t⟩
  | Except.error e => Except.error e

def JsonToken.object_key (s : List Char) : Except (List Char) JsonToken :=
  match AsciiLine.new ('"' :: (s ++ ['"'])) with
  | Except.ok t => Except.ok ⟨JsonTokenTag.ObjectKey, t⟩
  | Except.error e => Except.error e

def JsonToken.array_start : JsonToken := ⟨JsonTokenTag.ArrayStart, asciiLineOf ['[']⟩
def JsonToken.array_end : JsonToken := ⟨JsonTokenTag.ArrayEnd, asciiLineOf [']']⟩
def JsonToken.object_start : JsonToken := ⟨JsonTokenTag.ObjectStart, asciiLineOf ['\x7b']⟩
def JsonToken.object_end : JsonToken := ⟨JsonTokenTag.ObjectEnd, asciiLineOf ['\x7d']⟩
def JsonToken.comma : JsonToken := ⟨JsonTokenTag.Comma, asciiLineOf [',']⟩
def JsonToken.colon : JsonToken := ⟨JsonTokenTag.Colon, asciiLineOf [':']⟩

/-- The concatenated token text of a line (its rendering without the ANSI
style markup that `JsonLine::render` adds around each token). -/
def lineText (ln : JsonLine) : List Char := (ln.tokens.map (fun t => t.text.l)).flatten

/-- `children.last_mut()` mutation: apply `f` to the last line. -/
def modifyLastLine (f : JsonLine → JsonLine) : List JsonLine → List JsonLine
  | [] => []
  | [x] => [f x]
  | x :: xs => x :: modifyLastLine f xs

/-- `children.last_mut().unwrap().tokens.push(JsonToken::comma())`. -/
def pushComma (ln : JsonLine) : JsonLine := ⟨ln.tokens ++ [JsonToken.comma]⟩

/-- `children[0].tokens.insert(0, t)` (the Rust indexing panics on an empty
vector; `parse_json_lines` never produces one, see
`parse_json_lines_ne_nil`). -/
def prependTok (t : JsonToken) : List JsonLine → List JsonLine
  | [] => []
  | ln :: lns => ⟨t :: ln.tokens⟩ :: lns

/-! ### Object-member sorting

`items.sort_by(|o1, o2| (o1.0).cmp(&o2.0))` is a stable sort under the
byte-lexicographic key order; modelled by `List.insertionSort` (also stable)
under `keyLe`. -/

/-- Byte-lexicographic `<=` on ASCII strings, as `str::cmp` computes it. -/
def charsLe : List Char → List Char → Bool
  | [], _ => true
  | _ :: _, [] => false
  | a :: as2, b :: bs => if a < b then true else if b < a then false else charsLe as2 bs

def keyLe (a b : List Char × JValue) : Prop := charsLe a.1 b.1 = true

instance : DecidableRel keyLe := fun a b => by unfold keyLe; infer_instance

lemma charsLe_total : ∀ a b : List Char, charsLe a b = true ∨ charsLe b a = true := by
  intro a
  induction a with
  | nil => intro b; left; rfl
  | cons x xs ih =>
    intro b
    cases b with
    | nil => right; rfl
    | cons y ys =>
      unfold charsLe
      rcases lt_trichotomy x y with h | h | h
      · left; simp [h]
      · subst h
        simp only [lt_irrefl, if_false]
        exact ih ys
      · right; simp [h]

lemma charsLe_trans :
    ∀ a b c : List Char, charsLe a b = true → charsLe b c = true → charsLe a c = true := by
  intro a
  induction a with
  | nil => intro b c _ _; rfl
  | cons x xs ih =>
    intro b c h1 h2
    cases b with
    | nil => simp [charsLe] at h1
    | cons y ys =>
      cases c with
      | nil => simp [charsLe] at h2
      | cons z zs =>
        unfold charsLe at h1 h2 ⊢
        rcases lt_trichotomy x y with hxy | hxy | hxy
        · rcases lt_trichotomy y z with hyz | hyz | hyz
          · simp [lt_trans hxy hyz]
          · subst hyz; simp [hxy]
          · exfalso
            rw [if_neg (lt_asymm hyz), if_pos hyz] at h2
            exact Bool.false_ne_true h2
        · subst hxy
          rcases lt_trichotomy x z with hyz | hyz | hyz
          · simp [hyz]
          · subst hyz
            simp only [lt_irrefl, if_false] at h1 h2 ⊢
            exact ih _ _ h1 h2
          · exfalso
            rw [if_neg (lt_asymm hyz), if_pos hyz] at h2
            exact Bool.false_ne_true h2
        · exfalso
          rw [if_neg (lt_asymm hxy), if_pos hxy] at h1
          exact Bool.false_ne_true h1

instance : IsTotal (List Char × JValue) keyLe :=
  ⟨fun a b => charsLe_total a.1 b.1⟩

instance : IsTrans (List Char × JValue) keyLe :=
  ⟨fun _ _ _ h1 h2 => charsLe_trans _ _ _ h1 h2⟩

/-- The `items.sort_by(key cmp)` call in the object branch. -/
def sortByKey (ms : List (List Char × JValue)) : List (List Char × JValue) :=
  List.insertionSort keyLe ms

/-! ### Sizes (termination measures for the tokenizer recursion) -/

mutual
def JValue.size : JValue → Nat
  | .null => 1
  | .bool _ => 1
  | .num _ => 1
  | .str _ => 1
  | .arr vs => 1 + sizeArr vs
  | .obj ms => 1 + sizeObj ms

def sizeArr : List JValue → Nat
  | [] => 0
  | v :: vs => 1 + JValue.size v + sizeArr vs

def sizeObj : List (List Char × JValue) → Nat
  | [] => 0
  | m :: ms => 1 + JValue.size m.2 + sizeObj ms
end

lemma sizeObj_eq_sum : ∀ ms, sizeObj ms = (ms.map (fun m => 1 + JValue.size m.2)).sum := by
  intro ms
  induction ms with
  | nil => rfl
  | cons m ms ih => simp [sizeObj, ih]

lemma sizeObj_perm {ms ms2 : List (List Char × JValue)} (h : ms.Perm ms2) :
    sizeObj ms = sizeObj ms2 := by
  rw [sizeObj_eq_sum, sizeObj_eq_sum]
  exact (h.map _).sum_eq

lemma sizeObj_sortByKey (ms : List (List Char × JValue)) :
    sizeObj (sortByKey ms) = sizeObj ms :=
  sizeObj_perm (List.perm_insertionSort _ ms)

/-! ### The tokenizer `parse_json_lines` (src/json/parser.rs) -/

mutual
def parse_json_lines : JValue → Nat → Except (List Char) (List JsonLine)
  | JValue.bool b, _ => Except.ok [⟨[JsonToken.bool b]⟩]
  | JValue.null, _ => Except.ok [⟨[JsonToken.null]⟩]
  | JValue.num n, _ => Except.ok [⟨[JsonToken.number n]⟩]
  | JValue.str s, _ =>
    match JsonToken.string s with
    | Except.ok t => Except.ok [⟨[t]⟩]
    | Except.error e => Except.error e
  | JValue.arr [], _ => Except.ok [⟨[JsonToken.array_start, JsonToken.array_end]⟩]
  | JValue.arr (v :: vs), ind =>
    match parseArrItems (v :: vs) ((v :: vs).length) 0 ind with
    | Except.error e => Except.error e
    | Except.ok body =>
      Except.ok (⟨[JsonToken.array_start]⟩ ::
        (body ++ [⟨[JsonToken.ws ind, JsonToken.array_end]⟩]))
  | JValue.obj [], _ => Except.ok [⟨[JsonToken.object_start, JsonToken.object_end]⟩]
  | JValue.obj (m :: ms), ind =>
    match parseObjItems (sortByKey (m :: ms)) ((m :: ms).length) 0 ind with
    | Except.error e => Except.error e
    | Except.ok body =>
      Except.ok (⟨[JsonToken.object_start]⟩ ::
        (body ++ [⟨[JsonToken.ws ind, JsonToken.object_end]⟩]))
termination_by v _ => JValue.size v
decreasing_by
  all_goals simp [JValue.size, sizeArr, sizeObj, sizeObj_sortByKey] <;> omega

/-- The array-children loop: `i` is the running index, `len` the array
length (`i < len - 1` decides the trailing comma). -/
def parseArrItems : List JValue → Nat → Nat → Nat → Except (List Char) (List JsonLine)
  | [], _, _, _ => Except.ok []
  | v :: rest, len, i, ind =>
    match parse_json_lines v (ind + 4) with
    | Except.error e => Except.error e
    | Except.ok children =>
      let children := if i < len - 1 then modifyLastLine pushComma children else children
      let children := prependTok (JsonToken.ws (ind + 4)) children
      match parseArrItems rest len (i + 1) ind with
      | Except.error e => Except.error e
      | Except.ok restLines => Except.ok (children ++ restLines)
termination_by vs _ _ _ => sizeArr vs
decreasing_by
  all_goals simp [JValue.size, sizeArr, sizeObj, sizeObj_sortByKey] <;> omega

/-- The (sorted) object-members loop. -/
def parseObjItems :
    List (List Char × JValue) → Nat → Nat → Nat → Except (List Char) (List JsonLine)
  | [], _, _, _ => Except.ok []
  | (k, v) :: rest, len, i, ind =>
    match parse_json_lines v (ind + 4) with
    | Except.error e => Except.error e
    | Except.ok children =>
      let children := prependTok (JsonToken.ws 1) children
      let children := prependTok JsonToken.colon children
      match JsonToken.object_key k with
      | Except.error e => Except.error e
      | Except.ok keyTok =>
        let children := prependTok keyTok children
        let children := prependTok (JsonToken.ws (ind + 4)) children
        let children := if i < len - 1 then modifyLastLine pushComma children else children
        match parseObjItems rest len (i + 1) ind with
        | Except.error e => Except.error e
        | Except.ok restLines => Except.ok (children ++ restLines)
termination_by ms _ _ _ => sizeObj ms
decreasing_by
  all_goals simp [JValue.size, sizeArr, sizeObj, sizeObj_sortByKey] <;> omega
end

/-! ## C10: the tokenizer never succeeds with an empty line sequence -/

/-- **C10.** `parse_json_lines` either fails or returns at least one line, so
a successfully loaded JSON document presents the viewport with a non-empty
document. -/
theorem parse_json_lines_ne_nil (v : JValue) (ind : Nat) (lines : List JsonLine)
    (h : parse_json_lines v ind = Except.ok lines) : lines ≠ [] := by
  intro hn
  subst hn
  cases v with
  | null => simp [parse_json_lines] at h
  | bool b => simp [parse_json_lines] at h
  | num n => simp [parse_json_lines] at h
  | str s =>
    unfold parse_json_lines at h
    split at h <;> simp_all
  | arr vs =>
    cases vs with
    | nil => simp [parse_json_lines] at h
    | cons v vs =>
      unfold parse_json_lines at h
      split at h <;> simp_all
  | obj ms =>
    cases ms with
    | nil => simp [parse_json_lines] at h
    | cons m ms =>
      unfold parse_json_lines at h
      split at h <;> simp_all

/-- Witness for C10 at the concrete document `null`. -/
theorem parse_json_lines_ne_nil_witness :
    parse_json_lines JValue.null 0 = Except.ok [JsonLine.mk [JsonToken.null]] ∧
      (([JsonLine.mk [JsonToken.null]] : List JsonLine) ≠ []) :=
  ⟨by simp [parse_json_lines], parse_json_lines_ne_nil JValue.null 0 _ (by simp [parse_json_lines])⟩

/-! ## C7: object members are emitted in lexicographic key order -/

lemma sortByKey_idem (ms : List (List Char × JValue)) :
    sortByKey (sortByKey ms) = sortByKey ms :=
  List.Sorted.insertionSort_eq (List.sorted_insertionSort keyLe ms)

/-- **C7.** The tokenizer's member order is the lexicographic key sort: the
sorted member list is `Sorted` under the key order, the output only depends on
the member list up to that sort (so input order is irrelevant), and
`tokenize` of `{"b":1,"a":2}` renders as the four lines
`{`, `    "a": 2,`, `    "b": 1`, `}`. -/
theorem tokenize_obj_sorted :
    (∀ ms : List (List Char × JValue), List.Sorted keyLe (sortByKey ms)) ∧
      (∀ (ms : List (List Char × JValue)) (ind : Nat),
        parse_json_lines (JValue.obj ms) ind =
          parse_json_lines (JValue.obj (sortByKey ms)) ind) ∧
      (parse_json_lines (JValue.obj [("b".data, JValue.num 1), ("a".data, JValue.num 2)]) 0).map
          (fun ls => ls.map lineText) =
        Except.ok [['\x7b'], "    \"a\": 2,".data, "    \"b\": 1".data, ['\x7d']] := by
  refine ⟨fun ms => List.sorted_insertionSort keyLe ms, ?_, ?_⟩
  case refine_2 =>
    have hs : sortByKey [("b".data, JValue.num 1), ("a".data, JValue.num 2)] =
        [("a".data, JValue.num 2), ("b".data, JValue.num 1)] := by rfl
    simp only [parse_json_lines, hs, parseObjItems]
    rfl
  intro ms ind
  cases ms with
  | nil => rfl
  | cons m ms =>
    cases hs : sortByKey (m :: ms) with
    | nil =>
      exfalso
      have hl := List.length_insertionSort keyLe (m :: ms)
      rw [show List.insertionSort keyLe (m :: ms) = sortByKey (m :: ms) from rfl, hs] at hl
      simp at hl
    | cons m2 ms2 =>
      have hlen : (m2 :: ms2).length = (m :: ms).length := by
        rw [← hs]
        exact List.length_insertionSort keyLe (m :: ms)
      have hidem : sortByKey (m2 :: ms2) = m2 :: ms2 := by
        rw [← hs]
        exact sortByKey_idem (m :: ms)
      simp only [parse_json_lines]
      rw [hs, hidem, hlen]

/-- Witness for C7: the order-irrelevance equation instantiated at a concrete
member list. -/
theorem tokenize_obj_sorted_witness :
    parse_json_lines (JValue.obj [("b".data, JValue.num 1), ("a".data, JValue.num 2)]) 0 =
      parse_json_lines
        (JValue.obj (sortByKey [("b".data, JValue.num 1), ("a".data, JValue.num 2)])) 0 :=
  tokenize_obj_sorted.2.1 [("b".data, JValue.num 1), ("a".data, JValue.num 2)] 0

/-! ## Width positivity and the centering loop (groundwork for C3, C9) -/

/-- Every stored width in the sparse map is at least 1 (true for every line
produced by `indent`, hence for every line a `View` ever holds). -/
def WidthPos (a : AsciiLine) : Prop := ∀ p ∈ a.charWidths, 1 ≤ p.2

lemma mem_of_lookup_eq :
    ∀ (l : List (Nat × Nat)) (k w : Nat), l.lookup k = some w → (k, w) ∈ l := by
  intro l
  induction l with
  | nil => intro k w h; simp [List.lookup] at h
  | cons p l ih =>
    intro k w h
    rcases p with ⟨a, b⟩
    by_cases hk : (k == a) = true
    · rw [List.lookup, hk] at h
      cases h
      simp only [beq_iff_eq] at hk
      subst hk
      exact List.mem_cons_self _ _
    · rw [List.lookup, Bool.of_not_eq_true hk] at h
      exact List.mem_cons_of_mem _ (ih _ _ h)

lemma char_width_pos (a : AsciiLine) (h : WidthPos a) (i : Nat) : 1 ≤ a.char_width i := by
  unfold AsciiLine.char_width
  cases hl : a.charWidths.lookup i with
  | none => simp
  | some w => simpa using h _ (mem_of_lookup_eq _ _ _ hl)

lemma widthPos_indentGo : ∀ (cs : List Char) (col i : Nat), ∀ p ∈ indentGo col i cs, 1 ≤ p.2 := by
  intro cs
  induction cs with
  | nil => intro col i p hp; simp [indentGo] at hp
  | cons c cs ih =>
    intro col i p hp
    unfold indentGo at hp
    by_cases hc : c = '\t'
    · rw [if_pos hc] at hp
      rcases List.mem_cons.mp hp with h | h
      · subst h
        have : col % 8 < 8 := Nat.mod_lt _ (by omega)
        simp
        omega
      · exact ih _ _ _ h
    · rw [if_neg hc] at hp
      exact ih _ _ _ hp

lemma widthPos_indent (a : AsciiLine) (fc : Nat) : WidthPos (a.indent fc) :=
  fun p hp => widthPos_indentGo a.l fc 0 p hp

lemma widthPos_empty : WidthPos emptyAsciiLine := by
  intro p hp
  simp [emptyAsciiLine] at hp

/-- Every line of the view has positive stored widths. -/
def GoodView (v : View) : Prop := ∀ a ∈ v.lines, WidthPos a

lemma goodView_currentLineD {v : View} (h : GoodView v) : WidthPos v.currentLineD := by
  unfold View.currentLineD List.getD
  cases hg : v.lines.get? (v.frameStartRow + v.cursorRow) with
  | none => simpa using widthPos_empty
  | some a => simpa using h a (List.get?_mem hg)

/-! ### centerLoop facts -/

lemma centerLoop_fst_le (row : AsciiLine) (tw ms : Nat) :
    ∀ fsc w, (centerLoop row tw ms fsc w).1 ≤ fsc := by
  intro fsc
  induction fsc with
  | zero => intro w; simp [centerLoop]
  | succ n ih =>
    intro w
    rw [centerLoop]
    split
    · exact le_trans (ih _) (by omega)
    · simp

lemma centerLoop_fst_ge (row : AsciiLine) (tw ms : Nat) :
    ∀ fsc w, ms ≤ fsc → ms ≤ (centerLoop row tw ms fsc w).1 := by
  intro fsc
  induction fsc with
  | zero => intro w h; simpa [centerLoop] using h
  | succ n ih =>
    intro w h
    rw [centerLoop]
    split
    · next hcond => exact ih _ (by omega)
    · simpa using h

lemma centerLoop_snd (row : AsciiLine) (tw ms : Nat) :
    ∀ fsc w,
      (centerLoop row tw ms fsc w).2 =
        w + ((List.range' ((centerLoop row tw ms fsc w).1 + 1)
          (fsc - (centerLoop row tw ms fsc w).1)).map row.char_width).sum := by
  intro fsc
  induction fsc with
  | zero => intro w; simp [centerLoop]
  | succ n ih =>
    intro w
    rw [centerLoop]
    split
    · next hcond =>
      set r := centerLoop row tw ms n (w + row.char_width (n + 1)) with hr
      have ih2 := ih (w + row.char_width (n + 1))
      rw [← hr] at ih2
      have hle : r.1 ≤ n := by rw [hr]; exact centerLoop_fst_le row tw ms n _
      have hn : n + 1 - r.1 = (n - r.1) + 1 := by omega
      have hcc : r.1 + 1 + (n - r.1) = n + 1 := by omega
      have hcat : List.range' (r.1 + 1) ((n - r.1) + 1) =
          List.range' (r.1 + 1) (n - r.1) ++ [n + 1] := by
        have h2 := @List.range'_concat 1 (r.1 + 1) (n - r.1)
        simpa [hcc] using h2
      rw [ih2, hn, hcat]
      simp only [List.map_append, List.sum_append, List.map_cons, List.map_nil,
        List.sum_cons, List.sum_nil]
      omega
    · simp

lemma centerLoop_sub_le_snd (row : AsciiLine) (tw ms : Nat)
    (hW : ∀ i, 1 ≤ row.char_width i) :
    ∀ fsc w, w + (fsc - (centerLoop row tw ms fsc w).1) ≤ (centerLoop row tw ms fsc w).2 := by
  intro fsc
  induction fsc with
  | zero => intro w; simp [centerLoop]
  | succ n ih =>
    intro w
    rw [centerLoop]
    split
    · next hcond =>
      have hle := centerLoop_fst_le row tw ms n (w + row.char_width (n + 1))
      have h1 := ih (w + row.char_width (n + 1))
      have h2 := hW (n + 1)
      omega
    · simp

lemma centerLoop_snd_lt (row : AsciiLine) (tw ms : Nat) :
    ∀ fsc w,
      (centerLoop row tw ms fsc w).2 < tw ∨ centerLoop row tw ms fsc w = (fsc, w) := by
  intro fsc
  induction fsc with
  | zero => intro w; right; simp [centerLoop]
  | succ n ih =>
    intro w
    rw [centerLoop]
    split
    · next hcond =>
      rcases ih (w + row.char_width (n + 1)) with h | h
      · exact Or.inl h
      · left
        rw [h]
        exact hcond.2
    · right; rfl

lemma centerLoop_restart (row : AsciiLine) (tw ms : Nat) :
    ∀ fsc w,
      centerLoop row tw (centerLoop row tw ms fsc w).1 fsc w = centerLoop row tw ms fsc w := by
  intro fsc
  induction fsc with
  | zero => intro w; simp [centerLoop]
  | succ n ih =>
    intro w
    by_cases hcond : ms < n + 1 ∧ w + row.char_width (n + 1) < tw
    · have hstep : centerLoop row tw ms (n + 1) w =
          centerLoop row tw ms n (w + row.char_width (n + 1)) := by
        rw [centerLoop, if_pos hcond]
      rw [hstep]
      have hle := centerLoop_fst_le row tw ms n (w + row.char_width (n + 1))
      have hcond2 : (centerLoop row tw ms n (w + row.char_width (n + 1))).1 < n + 1 ∧
          w + row.char_width (n + 1) < tw := ⟨by omega, hcond.2⟩
      conv_lhs => rw [centerLoop]
      rw [if_pos hcond2]
      exact ih (w + row.char_width (n + 1))
    · have hstop : centerLoop row tw ms (n + 1) w = (n + 1, w) := by
        rw [centerLoop, if_neg hcond]
      rw [hstop]
      rw [centerLoop]
      rw [if_neg]
      rintro ⟨h1, _⟩
      omega

/-! ### The result of `center_horizontally` in closed form -/

/-- The `min_start` local of `center_horizontally`. -/
def View.centerMs (v : View) : Nat :=
  if min v.maxLineCharIx (v.currentLineD.chars_count - 1) < v.frameStartCharIx + v.width
  then v.frameStartCharIx else 0

/-- The `(fsc, w)` pair computed by `center_horizontally`'s loop. -/
def View.centerP (v : View) : Nat × Nat :=
  centerLoop v.currentLineD (v.width - v.num_column_width) v.centerMs
    (min v.maxLineCharIx (v.currentLineD.chars_count - 1)) 0

lemma center_result (v : View) :
    v.center_horizontally =
      { v with frameStartCharIx := v.centerP.1,
               cursorCol := v.centerP.2 + v.currentLineD.char_width v.centerP.1 - 1 } := rfl

/-! ## The viewport cursor-column invariant (C3) -/

/-- Invariant maintained by every navigation operation: positive stored
widths, the snap equation for `line_char_ix`, and the cursor-column equation
`cursor_col + 1 = sum of char_width over the closed range
[frame_start_char_ix, line_char_ix]`. -/
def ViewInv (v : View) : Prop :=
  GoodView v ∧
    v.lineCharIx = min v.maxLineCharIx (v.currentLineD.chars_count - 1) ∧
    v.frameStartCharIx ≤ v.lineCharIx ∧
    v.cursorCol + 1 =
      ((List.range' v.frameStartCharIx (v.lineCharIx + 1 - v.frameStartCharIx)).map
        v.currentLineD.char_width).sum

lemma inv_after_center (v : View) (hG : GoodView v)
    (hJ : v.lineCharIx = min v.maxLineCharIx (v.currentLineD.chars_count - 1)) :
    ViewInv v.center_horizontally := by
  have hW : ∀ i, 1 ≤ v.currentLineD.char_width i :=
    fun i => char_width_pos _ (goodView_currentLineD hG) i
  rw [center_result]
  refine ⟨hG, hJ, ?_, ?_⟩
  · show v.centerP.1 ≤ v.lineCharIx
    rw [hJ]
    exact centerLoop_fst_le _ _ _ _ _
  · show v.centerP.2 + v.currentLineD.char_width v.centerP.1 - 1 + 1 =
      ((List.range' v.centerP.1 (v.lineCharIx + 1 - v.centerP.1)).map
        v.currentLineD.char_width).sum
    rw [hJ]
    have hp : v.centerP = centerLoop v.currentLineD (v.width - v.num_column_width) v.centerMs
        (min v.maxLineCharIx (v.currentLineD.chars_count - 1)) 0 := rfl
    rw [hp]
    set L := centerLoop v.currentLineD (v.width - v.num_column_width) v.centerMs
        (min v.maxLineCharIx (v.currentLineD.chars_count - 1)) 0 with hL
    set c := min v.maxLineCharIx (v.currentLineD.chars_count - 1) with hc
    have hple : L.1 ≤ c := by rw [hL]; exact centerLoop_fst_le _ _ _ _ _
    have hsnd : L.2 =
        0 + ((List.range' (L.1 + 1) (c - L.1)).map v.currentLineD.char_width).sum := by
      rw [hL]
      exact centerLoop_snd _ _ _ _ _
    have hWp := hW L.1
    have harith : c + 1 - L.1 = (c - L.1) + 1 := by omega
    have hsucc : List.range' L.1 ((c - L.1) + 1) = L.1 :: List.range' (L.1 + 1) (c - L.1) :=
      List.range'_succ L.1 (c - L.1) 1
    rw [harith, hsucc]
    simp only [List.map_cons, List.sum_cons]
    omega

lemma inv_cap_center (v : View) (hG : GoodView v) :
    ViewInv v.cap_line_char_ix.center_horizontally := by
  apply inv_after_center
  · exact hG
  · rfl

lemma inv_move_right (v : View) (h : ViewInv v) : ViewInv v.move_right := by
  obtain ⟨hG, hJ, hle, hsum⟩ := h
  unfold View.move_right
  dsimp only
  split_ifs with h1 h2
  · exact ⟨hG, hJ, hle, hsum⟩
  · exact ⟨hG, hJ, hle, hsum⟩
  · apply inv_after_center
    · exact hG
    · show v.lineCharIx + 1 = min (v.lineCharIx + 1) (v.currentLineD.chars_count - 1)
      omega

lemma inv_move_left (v : View) (h : ViewInv v) : ViewInv v.move_left := by
  obtain ⟨hG, hJ, hle, hsum⟩ := h
  unfold View.move_left
  dsimp only
  split_ifs with h1 h2
  · exact ⟨hG, hJ, hle, hsum⟩
  · exact ⟨hG, hJ, hle, hsum⟩
  · apply inv_after_center
    · exact hG
    · show v.lineCharIx - 1 = min (v.lineCharIx - 1) (v.currentLineD.chars_count - 1)
      omega

lemma inv_move_up (v : View) (h : ViewInv v) : ViewInv v.move_up := by
  obtain ⟨hG, hJ, hle, hsum⟩ := h
  unfold View.move_up
  dsimp only
  split_ifs with h1 h2
  · exact ⟨hG, hJ, hle, hsum⟩
  · exact inv_cap_center _ hG
  · exact inv_cap_center _ hG

lemma inv_move_down (v : View) (h : ViewInv v) : ViewInv v.move_down := by
  obtain ⟨hG, hJ, hle, hsum⟩ := h
  unfold View.move_down
  dsimp only
  split_ifs with h1 h2
  · exact ⟨hG, hJ, hle, hsum⟩
  · exact inv_cap_center _ hG
  · exact inv_cap_center _ hG

lemma inv_move_to_sol (v : View) (h : ViewInv v) : ViewInv v.move_to_sol := by
  obtain ⟨hG, hJ, hle, hsum⟩ := h
  unfold View.move_to_sol
  dsimp only
  split_ifs with h1
  · exact ⟨hG, hJ, hle, hsum⟩
  · apply inv_after_center
    · exact hG
    · show (0 : Nat) = min 0 (v.currentLineD.chars_count - 1)
      simp

lemma inv_move_to_eol (v : View) (h : ViewInv v) : ViewInv v.move_to_eol := by
  obtain ⟨hG, hJ, hle, hsum⟩ := h
  unfold View.move_to_eol
  dsimp only
  split_ifs with h1
  · exact ⟨hG, hJ, hle, hsum⟩
  · apply inv_after_center
    · exact hG
    · show v.currentLineD.chars_count - 1 =
        min (v.currentLineD.chars_count - 1) (v.currentLineD.chars_count - 1)
      simp

lemma inv_page_up (v : View) (h : ViewInv v) : ViewInv v.page_up := by
  obtain ⟨hG, hJ, hle, hsum⟩ := h
  unfold View.page_up
  dsimp only
  split_ifs with h1 h2
  · exact ⟨hG, hJ, hle, hsum⟩
  · exact inv_cap_center _ hG
  · exact inv_cap_center _ hG

lemma inv_page_down (v : View) (h : ViewInv v) : ViewInv v.page_down := by
  obtain ⟨hG, hJ, hle, hsum⟩ := h
  unfold View.page_down
  dsimp only
  split_ifs with h1 h2
  · exact ⟨hG, hJ, hle, hsum⟩
  · exact inv_cap_center _ hG
  · exact inv_cap_center _ hG

lemma inv_goto (v : View) (r c : Nat) (h : ViewInv v) : ViewInv (v.goto r c) := by
  obtain ⟨hG, hJ, hle, hsum⟩ := h
  unfold View.goto
  dsimp only
  split_ifs with h1 h2
  · exact ⟨hG, hJ, hle, hsum⟩
  · exact inv_cap_center _ hG
  · exact inv_cap_center _ hG

lemma inv_apply (v : View) (op : NavOp) (h : ViewInv v) : ViewInv (applyOp v op) := by
  cases op with
  | right => exact inv_move_right v h
  | left => exact inv_move_left v h
  | up => exact inv_move_up v h
  | down => exact inv_move_down v h
  | sol => exact inv_move_to_sol v h
  | eol => exact inv_move_to_eol v h
  | pageUp => exact inv_page_up v h
  | pageDown => exact inv_page_down v h
  | go r c => exact inv_goto v r c h

lemma inv_new (size : Nat × Nat) (lines : List AsciiLine) : ViewInv (View.new size lines) := by
  unfold View.new
  dsimp only
  have hG : GoodView
      { lines := lines.map (fun a => AsciiLine.indent a ((Nat.repr lines.length).length + 3))
        width := size.1, height := size.2
        numLinesPadding := (Nat.repr lines.length).length
        lineCharIx := 0, maxLineCharIx := 0
        frameStartRow := 0, frameStartCharIx := 0
        cursorRow := 0, cursorCol := 0 } := by
    intro a ha
    obtain ⟨b, hb, rfl⟩ := List.mem_map.mp ha
    exact widthPos_indent b _
  unfold View.goto
  dsimp only
  split_ifs with h1 h2
  · refine ⟨hG, ?_, le_refl _, ?_⟩
    · simp at h1
      simp [View.currentLineD, h1]
    · simp at h1
      simp [View.currentLineD, h1, emptyAsciiLine, AsciiLine.char_width, List.range']
  · exact inv_cap_center _ hG
  · exact inv_cap_center _ hG

lemma inv_foldl : ∀ (ops : List NavOp) (v : View), ViewInv v → ViewInv (ops.foldl applyOp v) := by
  intro ops
  induction ops with
  | nil => intro v h; exact h
  | cons op ops ih =>
    intro v h
    exact ih _ (inv_apply v op h)

lemma reachable_inv (v : View) (h : Reachable v) : ViewInv v := by
  obtain ⟨size, lines, ops, rfl⟩ := h
  exact inv_foldl ops _ (inv_new size lines)

/-- **C3 (amended).** In every reachable state over a non-empty document,
`frame_start_char_ix ≤ line_char_ix` and `cursor_col + 1` equals the sum of
`char_width(i)` over the **closed** range
`[frame_start_char_ix, line_char_ix]` of the active line (equivalently
`cursor_col` is that sum minus one) — the half-open-range version of the
claim fails when a tab sits under the cursor. -/
theorem cursor_col_spans_frame (v : View) (h : Reachable v) (hne : v.lines ≠ []) :
    v.frameStartCharIx ≤ v.lineCharIx ∧
      v.cursorCol + 1 =
        ((List.range' v.frameStartCharIx (v.lineCharIx + 1 - v.frameStartCharIx)).map
          v.currentLineD.char_width).sum :=
  ⟨(reachable_inv v h).2.2.1, (reachable_inv v h).2.2.2⟩

/-- The tab-under-cursor scenario of the repo's `test_tab_movement`: four
`move_right`s put the cursor on the tab of `"line\tfuffa"`. -/
def c3view : View :=
  List.foldl applyOp
    (View.new (80, 23)
      (["line\tfuffa", "line 3", "line 4"].map (fun s => asciiLineOf s.data)))
    [NavOp.right, NavOp.right, NavOp.right, NavOp.right]

/-- C3 counterexample: in the reachable state `c3view` the cursor column is
11, but the claimed half-open sum over `[frame_start_char_ix, line_char_ix)`
is 4. -/
theorem cursor_col_spans_frame_counterexample :
    Reachable c3view ∧ c3view.lines ≠ [] ∧
      ¬(c3view.cursorCol =
        ((List.range' c3view.frameStartCharIx (c3view.lineCharIx - c3view.frameStartCharIx)).map
          c3view.currentLineD.char_width).sum) :=
  ⟨⟨(80, 23), _, _, rfl⟩, by decide, by decide⟩

/-- Witness for C3 (amended) at the concrete reachable state `c3view`. -/
theorem cursor_col_spans_frame_witness :
    c3view.frameStartCharIx ≤ c3view.lineCharIx ∧
      c3view.cursorCol + 1 =
        ((List.range' c3view.frameStartCharIx (c3view.lineCharIx + 1 - c3view.frameStartCharIx)).map
          c3view.currentLineD.char_width).sum :=
  cursor_col_spans_frame c3view ⟨(80, 23), _, _, rfl⟩ (by decide)

/-! ## C9: idempotence of `center_horizontally` -/

lemma centerLoop_stable (row : AsciiLine) (tw width ms c : Nat)
    (hW : ∀ i, 1 ≤ row.char_width i) (htw : tw ≤ width) :
    centerLoop row tw
      (if c < (centerLoop row tw ms c 0).1 + width then (centerLoop row tw ms c 0).1 else 0)
      c 0 = centerLoop row tw ms c 0 := by
  by_cases hcase : c < (centerLoop row tw ms c 0).1 + width
  · rw [if_pos hcase]
    exact centerLoop_restart row tw ms c 0
  · rw [if_neg hcase]
    have hle := centerLoop_fst_le row tw ms c 0
    have hsub := centerLoop_sub_le_snd row tw ms hW c 0
    rcases centerLoop_snd_lt row tw ms c 0 with hlt | hnostep
    · omega
    · have hw0 : width = 0 := by
        rw [hnostep] at hcase
        omega
      have htw0 : tw = 0 := by omega
      rw [hnostep]
      cases c with
      | zero => simp [centerLoop]
      | succ n =>
        rw [centerLoop, if_neg]
        rintro ⟨hh1, hh2⟩
        omega

lemma center_idem_of_pos (v : View) (hW : ∀ i, 1 ≤ v.currentLineD.char_width i) :
    (v.center_horizontally).center_horizontally = v.center_horizontally := by
  have hstable :
      View.centerP
        { v with
            frameStartCharIx := v.centerP.1
            cursorCol := v.centerP.2 + v.currentLineD.char_width v.centerP.1 - 1 } =
        v.centerP := by
    show centerLoop v.currentLineD (v.width - v.num_column_width)
        (if min v.maxLineCharIx (v.currentLineD.chars_count - 1) < v.centerP.1 + v.width
         then v.centerP.1 else 0)
        (min v.maxLineCharIx (v.currentLineD.chars_count - 1)) 0 = v.centerP
    exact centerLoop_stable v.currentLineD (v.width - v.num_column_width) v.width
      v.centerMs (min v.maxLineCharIx (v.currentLineD.chars_count - 1)) hW (Nat.sub_le _ _)
  have h2 := center_result
    { v with
        frameStartCharIx := v.centerP.1
        cursorCol := v.centerP.2 + v.currentLineD.char_width v.centerP.1 - 1 }
  rw [hstable] at h2
  rw [center_result v, h2]
  rfl

/-- **C9.** `center_horizontally` is idempotent on every reachable state over
a non-empty document: a second call changes neither `frame_start_char_ix` nor
`cursor_col` (the whole state is unchanged). -/
theorem center_horizontally_idem (v : View) (h : Reachable v) (hne : v.lines ≠ []) :
    (v.center_horizontally).center_horizontally = v.center_horizontally :=
  center_idem_of_pos v
    (fun i => char_width_pos _ (goodView_currentLineD (reachable_inv v h).1) i)

/-- Witness for C9 at a concrete one-line document. -/
theorem center_horizontally_idem_witness :
    ((View.new (80, 23) [asciiLineOf "hi".data]).center_horizontally).center_horizontally =
      (View.new (80, 23) [asciiLineOf "hi".data]).center_horizontally :=
  center_horizontally_idem _ ⟨(80, 23), [asciiLineOf "hi".data], [], rfl⟩ (by decide)

/-! ## The path index (src/json/index.rs)

`index` walks all tokens in row-major order keeping a path-segment stack
(`path`, seeded with `"#"`), a per-container stack of
`(optional array index, has-entry flag)` (`stack`, top at the head), and the
running column `c`.  `HashMap::insert` is modelled by consing onto `refs` (so
`List.lookup`, which returns the first hit, sees the latest insert, matching
overwrite semantics).  `stack.last_mut().unwrap()` / `stack.pop().unwrap()`
panic on an empty stack — e.g. for a document whose root is a scalar — so the
model returns `Option`. -/

structure IdxState where
  refs : List (List Char × Nat × Nat)
  path : List (List Char)
  stack : List (Option Nat × Bool)
deriving Repr, DecidableEq

/-- `path.join("")`. -/
def pathJoin (p : List (List Char)) : List Char := p.flatten

/-- `ix.to_string()`. -/
def natChars (n : Nat) : List Char := (Nat.repr n).data

/-- The shared `ObjectStart`/`ArrayStart` arm of the token match. -/
def startStep (isArr : Bool) (r c : Nat) (st : IdxState) : IdxState :=
  let path :=
    match st.stack.head? with
    | some (some ix, _) => st.path ++ [natChars ix]
    | _ => st.path
  ⟨(pathJoin path, r, c) :: st.refs, path ++ [['/']],
    (if isArr then (some 0, false) else (none, false)) :: st.stack⟩

/-- One token of the `index` loop at row `r`, column `c`. -/
def tokStep (r c : Nat) (st : IdxState) (tok : JsonToken) : Option IdxState :=
  match tok.tag with
  | JsonTokenTag.ObjectStart => some (startStep false r c st)
  | JsonTokenTag.ArrayStart => some (startStep true r c st)
  | JsonTokenTag.ObjectEnd | JsonTokenTag.ArrayEnd =>
    match st.stack with
    | [] => none
    | (_, hasEntry) :: rest =>
      some ⟨st.refs, (if hasEntry then st.path.dropLast else st.path).dropLast, rest⟩
  | JsonTokenTag.Comma =>
    match st.stack with
    | [] => none
    | (aix, _) :: rest =>
      some ⟨st.refs, st.path.dropLast,
        ((match aix with | some i => some (i + 1) | none => none), true) :: rest⟩
  | JsonTokenTag.ObjectKey =>
    some ⟨st.refs, st.path ++ [(tok.text.l.drop 1).dropLast], st.stack⟩
  | JsonTokenTag.Null | JsonTokenTag.Number | JsonTokenTag.Bool
  | JsonTokenTag.String | JsonTokenTag.Ref =>
    match st.stack with
    | [] => none
    | (aix, _) :: rest =>
      let path :=
        match aix with
        | some ix => st.path ++ [natChars ix]
        | none => st.path
      some ⟨(pathJoin path, r, c) :: st.refs, path, (aix, true) :: rest⟩
  | _ => some st

/-- The inner token loop of one line (`c` advances by each token's
`chars_count`). -/
def lineSteps (r : Nat) : Nat → IdxState → List JsonToken → Option IdxState
  | _, st, [] => some st
  | c, st, tok :: toks =>
    match tokStep r c st tok with
    | none => none
    | some st2 => lineSteps r (c + tok.text.l.length) st2 toks

/-- The outer row loop. -/
def linesSteps : Nat → IdxState → List JsonLine → Option IdxState
  | _, st, [] => some st
  | r, st, ln :: lns =>
    match lineSteps r 0 st ln.tokens with
    | none => none
    | some st2 => linesSteps (r + 1) st2 lns

/-- `index(lines)`: seed `path = ["#"]`, empty stack, walk all tokens. -/
def jindex (lines : List JsonLine) : Option (List (List Char × Nat × Nat)) :=
  match linesSteps 0 ⟨[], [['#']], []⟩ lines with
  | none => none
  | some st => some st.refs

/-- Like `linesSteps`, but the first line starts at column `c0` (used to
describe processing a child document whose first line was extended in front
by the tokenizer). -/
def procLines (r c0 : Nat) (st : IdxState) : List JsonLine → Option IdxState
  | [] => some st
  | ln :: lns =>
    match lineSteps r c0 st ln.tokens with
    | none => none
    | some st2 => linesSteps (r + 1) st2 lns

/-- C2 counterexample: for the tokenized document `{}` the index succeeds but
holds the root under the key `"#"`, not `"#/"`; and for the scalar document
`null` the index panics (modelled as `none`) instead of returning a map. -/
theorem index_root_key_counterexample :
    parse_json_lines (JValue.obj []) 0 =
        Except.ok [JsonLine.mk [JsonToken.object_start, JsonToken.object_end]] ∧
      jindex [JsonLine.mk [JsonToken.object_start, JsonToken.object_end]] =
        some [(['#'], 0, 0)] ∧
      List.lookup "#/".data [(['#'], ((0 : Nat), (0 : Nat)))] = none ∧
      parse_json_lines JValue.null 0 = Except.ok [JsonLine.mk [JsonToken.null]] ∧
      jindex [JsonLine.mk [JsonToken.null]] = none := by
  refine ⟨by simp [parse_json_lines], by decide, by decide, by simp [parse_json_lines], by decide⟩

/-! ### Decomposition lemmas for index processing -/

def tokensLen (ts : List JsonToken) : Nat := (ts.map (fun t => t.text.l.length)).sum

lemma lineSteps_append (r : Nat) :
    ∀ (ts us : List JsonToken) (c : Nat) (st : IdxState),
      lineSteps r c st (ts ++ us) =
        (lineSteps r c st ts).bind (fun s2 => lineSteps r (c + tokensLen ts) s2 us) := by
  intro ts
  induction ts with
  | nil => intro us c st; simp [lineSteps, tokensLen]
  | cons t ts ih =>
    intro us c st
    simp only [List.cons_append, lineSteps]
    cases h : tokStep r c st t with
    | none => simp
    | some st2 =>
      simp only [Option.some_bind, List.append_eq]
      rw [ih]
      have harith : c + t.text.l.length + tokensLen ts = c + tokensLen (t :: ts) := by
        simp [tokensLen]
        omega
      rw [harith]

lemma linesSteps_append :
    ∀ (as2 bs : List JsonLine) (r : Nat) (st : IdxState),
      linesSteps r st (as2 ++ bs) =
        (linesSteps r st as2).bind (fun s2 => linesSteps (r + as2.length) s2 bs) := by
  intro as2
  induction as2 with
  | nil => intro bs r st; simp [linesSteps]
  | cons a as2 ih =>
    intro bs r st
    simp only [List.cons_append, linesSteps]
    cases h : lineSteps r 0 st a.tokens with
    | none => simp
    | some st2 =>
      simp only [Option.some_bind, List.append_eq]
      rw [ih]
      have harith : r + 1 + as2.length = r + (as2.length + 1) := by omega
      rw [harith]
      rfl

lemma procLines_eq_linesSteps (r : Nat) (st : IdxState) :
    ∀ ls, procLines r 0 st ls = linesSteps r st ls := by
  intro ls
  cases ls <;> rfl

lemma procLines_cons (r c0 : Nat) (st : IdxState) (ln : JsonLine) (lns : List JsonLine) :
    procLines r c0 st (ln :: lns) =
      (lineSteps r c0 st ln.tokens).bind (fun s2 => linesSteps (r + 1) s2 lns) := by
  simp only [procLines]
  cases lineSteps r c0 st ln.tokens <;> rfl

lemma procLines_prepend (t : JsonToken) (ls : List JsonLine) (r c0 : Nat)
    (st st2 : IdxState) (ht : tokStep r c0 st t = some st2) (hls : ls ≠ []) :
    procLines r c0 st (prependTok t ls) =
      procLines r (c0 + t.text.l.length) st2 ls := by
  cases ls with
  | nil => exact absurd rfl hls
  | cons ln lns =>
    simp only [prependTok, procLines, lineSteps, ht]

/-- The `Comma` arm reads neither the row nor the column. -/
def commaStep (st : IdxState) : Option IdxState := tokStep 0 0 st JsonToken.comma

lemma tokStep_comma (r c : Nat) (st : IdxState) :
    tokStep r c st JsonToken.comma = commaStep st := rfl

lemma lineSteps_concat_comma (r : Nat) (ts : List JsonToken) (c : Nat) (st : IdxState) :
    lineSteps r c st (ts ++ [JsonToken.comma]) = (lineSteps r c st ts).bind commaStep := by
  rw [lineSteps_append]
  cases lineSteps r c st ts with
  | none => rfl
  | some s2 =>
    simp only [Option.some_bind]
    show (match tokStep r (c + tokensLen ts) s2 JsonToken.comma with
      | none => none
      | some st3 => lineSteps r _ st3 []) = commaStep s2
    rw [tokStep_comma]
    cases commaStep s2 <;> rfl

lemma linesSteps_modLast_comma :
    ∀ (ls : List JsonLine) (r : Nat) (st : IdxState), ls ≠ [] →
      linesSteps r st (modifyLastLine pushComma ls) = (linesSteps r st ls).bind commaStep := by
  intro ls
  induction ls with
  | nil => intro r st h; exact absurd rfl h
  | cons x xs ih =>
    intro r st _
    cases xs with
    | nil =>
      show linesSteps r st [JsonLine.mk (x.tokens ++ [JsonToken.comma])] = _
      simp only [linesSteps]
      rw [lineSteps_concat_comma]
      cases lineSteps r 0 st x.tokens with
      | none => rfl
      | some s2 =>
        simp only [Option.some_bind]
        cases hc : commaStep s2 <;> simp [linesSteps, hc]
    | cons y rest =>
      show linesSteps r st (x :: modifyLastLine pushComma (y :: rest)) = _
      simp only [linesSteps]
      cases lineSteps r 0 st x.tokens with
      | none => rfl
      | some s2 => exact ih _ _ (by simp)

lemma procLines_modLast_comma (ls : List JsonLine) (r c0 : Nat) (st : IdxState)
    (hls : ls ≠ []) :
    procLines r c0 st (modifyLastLine pushComma ls) =
      (procLines r c0 st ls).bind commaStep := by
  cases ls with
  | nil => exact absurd rfl hls
  | cons x xs =>
    cases xs with
    | nil =>
      show procLines r c0 st [JsonLine.mk (x.tokens ++ [JsonToken.comma])] = _
      simp only [procLines]
      rw [lineSteps_concat_comma]
      cases lineSteps r c0 st x.tokens with
      | none => rfl
      | some s2 =>
        simp only [Option.some_bind]
        cases hc : commaStep s2 <;> simp [linesSteps, hc]
    | cons y rest =>
      show procLines r c0 st (x :: modifyLastLine pushComma (y :: rest)) = _
      simp only [procLines]
      cases lineSteps r c0 st x.tokens with
      | none => rfl
      | some s2 => exact linesSteps_modLast_comma _ _ _ (by simp)

lemma modifyLastLine_length (f : JsonLine → JsonLine) :
    ∀ ls, (modifyLastLine f ls).length = ls.length := by
  intro ls
  induction ls with
  | nil => rfl
  | cons x xs ih =>
    cases xs with
    | nil => rfl
    | cons y rest => simpa [modifyLastLine] using ih

lemma prependTok_length (t : JsonToken) : ∀ ls, (prependTok t ls).length = ls.length := by
  intro ls
  cases ls <;> rfl

/-! ### Step lemmas for individual token kinds -/

def JValue.isScalar : JValue → Bool
  | .arr _ => false
  | .obj _ => false
  | _ => true

/-- The path segment pushed for an array element, from the innermost frame's
optional index. -/
def segAix : Option Nat → List (List Char)
  | some ix => [natChars ix]
  | none => []

/-- The path segment pushed at a container start / leaf, from the stack. -/
def segOf (stack : List (Option Nat × Bool)) : List (List Char) :=
  match stack.head? with
  | some (some ix, _) => [natChars ix]
  | _ => []

def markTop : List (Option Nat × Bool) → List (Option Nat × Bool)
  | [] => []
  | (aix, _) :: rest => (aix, true) :: rest

lemma segOf_cons (aix : Option Nat) (b : Bool) (rest : List (Option Nat × Bool)) :
    segOf ((aix, b) :: rest) = segAix aix := by
  cases aix <;> rfl

lemma pathJoin_append_len (a b : List (List Char)) :
    (pathJoin (a ++ b)).length = (pathJoin a).length + (pathJoin b).length := by
  simp [pathJoin]

lemma dropLast_append_ne {α : Type} (X : List α) {E : List α} (hE : E ≠ []) :
    (X ++ E).dropLast = X ++ E.dropLast :=
  List.dropLast_append_of_ne_nil _ hE

lemma drop2_append {α : Type} (X M : List α) (hM : 2 ≤ M.length) :
    ((X ++ M).dropLast).dropLast = X ++ (M.dropLast).dropLast := by
  have hM1 : M ≠ [] := by
    intro h
    subst h
    simp at hM
  have hM2 : M.dropLast ≠ [] := by
    intro h
    have := congrArg List.length h
    simp at this
    omega
  rw [dropLast_append_ne X hM1, dropLast_append_ne X hM2]

lemma tokStep_ws (r c : Nat) (st : IdxState) (s : Nat) :
    tokStep r c st (JsonToken.ws s) = some st := rfl

lemma tokStep_colon (r c : Nat) (st : IdxState) :
    tokStep r c st JsonToken.colon = some st := rfl

lemma ws_text_len (s : Nat) : (JsonToken.ws s).text.l.length = s := by
  show (List.replicate s ' ').length = s
  simp

lemma startStep_eq (isArr : Bool) (r c0 : Nat) (st : IdxState) :
    startStep isArr r c0 st =
      ⟨(pathJoin (st.path ++ segOf st.stack), r, c0) :: st.refs,
        (st.path ++ segOf st.stack) ++ [['/']],
        (if isArr then (some 0, false) else (none, false)) :: st.stack⟩ := by
  unfold startStep segOf
  cases st.stack with
  | nil => simp
  | cons f rest =>
    rcases f with ⟨aix, b⟩
    cases aix <;> simp

lemma tokStep_array_end (r c : Nat) (st : IdxState) (aix : Option Nat) (b : Bool)
    (rest : List (Option Nat × Bool)) (hst : st.stack = (aix, b) :: rest) :
    tokStep r c st JsonToken.array_end =
      some ⟨st.refs, (if b then st.path.dropLast else st.path).dropLast, rest⟩ := by
  unfold tokStep
  show (match st.stack with
    | [] => none
    | (_, hasEntry) :: rest2 =>
      some (⟨st.refs, (if hasEntry then st.path.dropLast else st.path).dropLast,
        rest2⟩ : IdxState)) = _
  rw [hst]

lemma tokStep_object_end (r c : Nat) (st : IdxState) (aix : Option Nat) (b : Bool)
    (rest : List (Option Nat × Bool)) (hst : st.stack = (aix, b) :: rest) :
    tokStep r c st JsonToken.object_end =
      some ⟨st.refs, (if b then st.path.dropLast else st.path).dropLast, rest⟩ := by
  unfold tokStep
  show (match st.stack with
    | [] => none
    | (_, hasEntry) :: rest2 =>
      some (⟨st.refs, (if hasEntry then st.path.dropLast else st.path).dropLast,
        rest2⟩ : IdxState)) = _
  rw [hst]

/-- The array-index bump a `Comma` applies to the innermost frame. -/
def bumpAix : Option Nat → Option Nat
  | some i => some (i + 1)
  | none => none

lemma commaStep_eq (st : IdxState) (aix : Option Nat) (b : Bool)
    (rest : List (Option Nat × Bool)) (hst : st.stack = (aix, b) :: rest) :
    commaStep st =
      some ⟨st.refs, st.path.dropLast, (bumpAix aix, true) :: rest⟩ := by
  unfold commaStep tokStep
  show (match st.stack with
    | [] => none
    | (aix2, _) :: rest2 =>
      some (⟨st.refs, st.path.dropLast,
        ((match aix2 with | some i => some (i + 1) | none => none), true) :: rest2⟩ :
          IdxState)) = _
  rw [hst]
  cases aix <;> rfl

lemma tokStep_scalar (r c : Nat) (st : IdxState) (tok : JsonToken) (aix : Option Nat)
    (b : Bool) (rest : List (Option Nat × Bool)) (hst : st.stack = (aix, b) :: rest)
    (htag : tok.tag = JsonTokenTag.Null ∨ tok.tag = JsonTokenTag.Number ∨
      tok.tag = JsonTokenTag.Bool ∨ tok.tag = JsonTokenTag.String ∨
      tok.tag = JsonTokenTag.Ref) :
    tokStep r c st tok =
      some ⟨(pathJoin (st.path ++ segAix aix), r, c) :: st.refs,
        st.path ++ segAix aix, (aix, true) :: rest⟩ := by
  unfold tokStep
  rcases htag with h | h | h | h | h <;>
    rw [h] <;> rw [show (match st.stack with
      | [] => none
      | (aix2, _) :: rest2 =>
        let path := match aix2 with
          | some ix => st.path ++ [natChars ix]
          | none => st.path
        some (⟨(pathJoin path, r, c) :: st.refs, path, (aix2, true) :: rest2⟩ : IdxState)) =
      some ⟨(pathJoin (st.path ++ segAix aix), r, c) :: st.refs,
        st.path ++ segAix aix, (aix, true) :: rest⟩ from by
        rw [hst]
        cases aix <;> simp [segAix]]

lemma object_key_ok {k : List Char} {tok : JsonToken}
    (h : JsonToken.object_key k = Except.ok tok) :
    tok.tag = JsonTokenTag.ObjectKey ∧ tok.text.l = '"' :: (k ++ ['"']) := by
  unfold JsonToken.object_key at h
  cases hn : AsciiLine.new ('"' :: (k ++ ['"'])) with
  | ok t =>
    rw [hn] at h
    cases h
    refine ⟨rfl, ?_⟩
    unfold AsciiLine.new at hn
    split at hn
    · cases hn
      rfl
    · cases hn
  | error e =>
    rw [hn] at h
    cases h

lemma string_ok_tag {s : List Char} {tok : JsonToken}
    (h : JsonToken.string s = Except.ok tok) :
    tok.tag = JsonTokenTag.Ref ∨ tok.tag = JsonTokenTag.String := by
  unfold JsonToken.string at h
  cases hn : AsciiLine.new ('"' :: (s ++ ['"'])) with
  | ok t =>
    rw [hn] at h
    cases h
    by_cases hc : s.take 2 = "#/".data
    · left; simp [hc]
    · right; simp [hc]
  | error e =>
    rw [hn] at h
    cases h

lemma tokStep_key (r c : Nat) (st : IdxState) {k : List Char} {tok : JsonToken}
    (h : JsonToken.object_key k = Except.ok tok) :
    tokStep r c st tok = some ⟨st.refs, st.path ++ [k], st.stack⟩ := by
  obtain ⟨htag, htext⟩ := object_key_ok h
  unfold tokStep
  rw [htag]
  show some (⟨st.refs, st.path ++ [(tok.text.l.drop 1).dropLast], st.stack⟩ : IdxState) = _
  rw [htext]
  simp [List.dropLast_concat]

lemma procLines_scalar_tok (r c0 : Nat) (st : IdxState) (tok : JsonToken) (aix : Option Nat)
    (b : Bool) (rest : List (Option Nat × Bool)) (hst : st.stack = (aix, b) :: rest)
    (htag : tok.tag = JsonTokenTag.Null ∨ tok.tag = JsonTokenTag.Number ∨
      tok.tag = JsonTokenTag.Bool ∨ tok.tag = JsonTokenTag.String ∨
      tok.tag = JsonTokenTag.Ref) :
    procLines r c0 st [JsonLine.mk [tok]] =
      some ⟨(pathJoin (st.path ++ segAix aix), r, c0) :: st.refs,
        st.path ++ segAix aix, (aix, true) :: rest⟩ := by
  simp only [procLines, lineSteps, tokStep_scalar r c0 st tok aix b rest hst htag]
  rfl

lemma tokStep_array_start (r c : Nat) (st : IdxState) :
    tokStep r c st JsonToken.array_start = some (startStep true r c st) := rfl

lemma tokStep_object_start (r c : Nat) (st : IdxState) :
    tokStep r c st JsonToken.object_start = some (startStep false r c st) := rfl

lemma lineSteps_single (r c : Nat) (st : IdxState) (tok : JsonToken) (st2 : IdxState)
    (h : tokStep r c st tok = some st2) : lineSteps r c st [tok] = some st2 := by
  simp [lineSteps, h]

lemma lineSteps_end_arr (r ind : Nat) (st : IdxState) (aix : Option Nat) (b : Bool)
    (rest : List (Option Nat × Bool)) (hst : st.stack = (aix, b) :: rest) :
    lineSteps r 0 st [JsonToken.ws ind, JsonToken.array_end] =
      some ⟨st.refs, (if b then st.path.dropLast else st.path).dropLast, rest⟩ := by
  show lineSteps r 0 st ([JsonToken.ws ind] ++ [JsonToken.array_end]) = _
  rw [lineSteps_append, lineSteps_single _ _ _ _ _ (tokStep_ws r 0 st ind)]
  simp only [Option.some_bind]
  exact lineSteps_single _ _ _ _ _ (tokStep_array_end _ _ st aix b rest hst)

lemma lineSteps_end_obj (r ind : Nat) (st : IdxState) (aix : Option Nat) (b : Bool)
    (rest : List (Option Nat × Bool)) (hst : st.stack = (aix, b) :: rest) :
    lineSteps r 0 st [JsonToken.ws ind, JsonToken.object_end] =
      some ⟨st.refs, (if b then st.path.dropLast else st.path).dropLast, rest⟩ := by
  show lineSteps r 0 st ([JsonToken.ws ind] ++ [JsonToken.object_end]) = _
  rw [lineSteps_append, lineSteps_single _ _ _ _ _ (tokStep_ws r 0 st ind)]
  simp only [Option.some_bind]
  exact lineSteps_single _ _ _ _ _ (tokStep_object_end _ _ st aix b rest hst)

lemma procLines_empty_arr (r c0 : Nat) (st : IdxState) :
    procLines r c0 st [JsonLine.mk [JsonToken.array_start, JsonToken.array_end]] =
      some ⟨(pathJoin (st.path ++ segOf st.stack), r, c0) :: st.refs,
        st.path ++ segOf st.stack, st.stack⟩ := by
  have h1 : tokStep r c0 st JsonToken.array_start =
      some ⟨(pathJoin (st.path ++ segOf st.stack), r, c0) :: st.refs,
        (st.path ++ segOf st.stack) ++ [['/']], (some 0, false) :: st.stack⟩ := by
    rw [tokStep_array_start, startStep_eq]
    simp
  have h2 := tokStep_array_end r (c0 + JsonToken.array_start.text.l.length)
    (⟨(pathJoin (st.path ++ segOf st.stack), r, c0) :: st.refs,
      (st.path ++ segOf st.stack) ++ [['/']], (some 0, false) :: st.stack⟩ : IdxState)
    (some 0) false st.stack rfl
  simp only [procLines, lineSteps, h1, h2]
  simp [linesSteps]

lemma procLines_empty_obj (r c0 : Nat) (st : IdxState) :
    procLines r c0 st [JsonLine.mk [JsonToken.object_start, JsonToken.object_end]] =
      some ⟨(pathJoin (st.path ++ segOf st.stack), r, c0) :: st.refs,
        st.path ++ segOf st.stack, st.stack⟩ := by
  have h1 : tokStep r c0 st JsonToken.object_start =
      some ⟨(pathJoin (st.path ++ segOf st.stack), r, c0) :: st.refs,
        (st.path ++ segOf st.stack) ++ [['/']], (none, false) :: st.stack⟩ := by
    rw [tokStep_object_start, startStep_eq]
    simp
  have h2 := tokStep_object_end r (c0 + JsonToken.object_start.text.l.length)
    (⟨(pathJoin (st.path ++ segOf st.stack), r, c0) :: st.refs,
      (st.path ++ segOf st.stack) ++ [['/']], (none, false) :: st.stack⟩ : IdxState)
    none false st.stack rfl
  simp only [procLines, lineSteps, h1, h2]
  simp [linesSteps]

/-! ### The index walk over a tokenized document

`indexP v` describes processing the token stream of one value `v` (as laid
out by `parse_json_lines`, first line starting at column `c0`): it succeeds,
leaves the container stack as found (marking the top frame for scalars),
extends the path below `st.path ++ seg`, and pushes exactly one entry for the
value itself at `(r, c0)` under the joined path, plus child entries whose
keys are all strictly longer.  `indexQarr`/`indexQobj` do the same for the
emitted children of a non-empty array/object. -/

lemma prependTok_ne (t : JsonToken) (ls : List JsonLine) (h : ls ≠ []) :
    prependTok t ls ≠ [] := by
  intro hnil
  have hl := congrArg List.length hnil
  rw [prependTok_length] at hl
  exact h (List.length_eq_zero.mp (by simpa using hl))

mutual
theorem indexP (v : JValue) : ∀ (ind : Nat) (lines : List JsonLine),
    parse_json_lines v ind = Except.ok lines →
    ∀ (st : IdxState) (r c0 : Nat), (v.isScalar = true → st.stack ≠ []) →
    ∃ st2 E new,
      procLines r c0 st lines = some st2 ∧
      st2.stack = (if v.isScalar then markTop st.stack else st.stack) ∧
      st2.path = (st.path ++ segOf st.stack) ++ E ∧
      st2.refs = (new ++ [(pathJoin (st.path ++ segOf st.stack), r, c0)]) ++ st.refs ∧
      (∀ e ∈ new, (pathJoin (st.path ++ segOf st.stack)).length + 1 ≤ e.1.length) := by
  intro ind lines hp st r c0 hs
  have hscalar : ∀ (tok : JsonToken),
      (tok.tag = JsonTokenTag.Null ∨ tok.tag = JsonTokenTag.Number ∨
        tok.tag = JsonTokenTag.Bool ∨ tok.tag = JsonTokenTag.String ∨
        tok.tag = JsonTokenTag.Ref) →
      v.isScalar = true →
      ∃ st2 E new,
        procLines r c0 st [JsonLine.mk [tok]] = some st2 ∧
        st2.stack = (if v.isScalar then markTop st.stack else st.stack) ∧
        st2.path = (st.path ++ segOf st.stack) ++ E ∧
        st2.refs = (new ++ [(pathJoin (st.path ++ segOf st.stack), r, c0)]) ++ st.refs ∧
        (∀ e ∈ new, (pathJoin (st.path ++ segOf st.stack)).length + 1 ≤ e.1.length) := by
    intro tok htag hv
    rcases hstk : st.stack with _ | ⟨⟨aix, b⟩, rest⟩
    · exact absurd hstk (hs hv)
    · refine ⟨_, [], [], procLines_scalar_tok r c0 st tok aix b rest hstk htag, ?_, ?_, ?_, ?_⟩
      · simp [hv, markTop]
      · rw [segOf_cons]
        simp
      · rw [segOf_cons]
        simp
      · intro e he
        simp at he
  cases v with
  | null =>
    simp only [parse_json_lines] at hp
    injection hp with hp
    subst hp
    exact hscalar JsonToken.null (Or.inl rfl) rfl
  | bool b2 =>
    simp only [parse_json_lines] at hp
    injection hp with hp
    subst hp
    exact hscalar (JsonToken.bool b2) (Or.inr (Or.inr (Or.inl rfl))) rfl
  | num n =>
    simp only [parse_json_lines] at hp
    injection hp with hp
    subst hp
    exact hscalar (JsonToken.number n) (Or.inr (Or.inl rfl)) rfl
  | str s =>
    unfold parse_json_lines at hp
    split at hp
    next t ht =>
      injection hp with hp
      subst hp
      have htag := string_ok_tag ht
      exact hscalar t
        (by rcases htag with h | h
            · exact Or.inr (Or.inr (Or.inr (Or.inr h)))
            · exact Or.inr (Or.inr (Or.inr (Or.inl h)))) rfl
    next e ht => cases hp
  | arr vs =>
    cases vs with
    | nil =>
      simp only [parse_json_lines] at hp
      injection hp with hp
      subst hp
      exact ⟨_, [], [], procLines_empty_arr r c0 st, rfl, by simp, by simp, by simp⟩
    | cons x xs =>
      unfold parse_json_lines at hp
      split at hp
      next e heq => cases hp
      next body heq =>
        injection hp with hp
        subst hp
        obtain ⟨st2, j2, b2, E, newq, hrun, hstk2, hpath2, hEne, hrefs2, hkeys⟩ :=
          indexQarr (x :: xs) ((x :: xs).length) 0 ind body heq (by simp)
            (⟨(pathJoin (st.path ++ segOf st.stack), r, c0) :: st.refs,
              (st.path ++ segOf st.stack) ++ [['/']], (some 0, false) :: st.stack⟩ : IdxState)
            (r + 1) 0 false st.stack rfl
        have hE2 : E ≠ [] := hEne (by simp)
        have hM : 2 ≤ ([['/']] ++ E).length := by
          rcases E with _ | ⟨e, es⟩
          · exact absurd rfl hE2
          · simp
        have hpath3 : st2.path = (st.path ++ segOf st.stack) ++ ([['/']] ++ E) := by
          rw [hpath2]
          simp
        have hstart : lineSteps r c0 st [JsonToken.array_start] =
            some ⟨(pathJoin (st.path ++ segOf st.stack), r, c0) :: st.refs,
              (st.path ++ segOf st.stack) ++ [['/']], (some 0, false) :: st.stack⟩ := by
          apply lineSteps_single
          rw [tokStep_array_start, startStep_eq]
          simp
        cases b2 with
        | true =>
          refine ⟨⟨st2.refs, st2.path.dropLast.dropLast, st.stack⟩,
            ([['/']] ++ E).dropLast.dropLast,
            newq, ?_, rfl, ?_, ?_, ?_⟩
          · rw [procLines_cons, hstart]
            simp only [Option.some_bind]
            rw [linesSteps_append, hrun]
            simp only [Option.some_bind, linesSteps]
            rw [lineSteps_end_arr _ ind st2 (some j2) true st.stack hstk2]
            rfl
          · rw [hpath3, drop2_append _ _ hM]
          · rw [hrefs2]
            simp
          · intro e he
            have h1 := hkeys e he
            rw [pathJoin_append_len] at h1
            have h2 : (pathJoin [['/']]).length = 1 := rfl
            omega
        | false =>
          refine ⟨⟨st2.refs, st2.path.dropLast, st.stack⟩,
            ([['/']] ++ E).dropLast,
            newq, ?_, rfl, ?_, ?_, ?_⟩
          · rw [procLines_cons, hstart]
            simp only [Option.some_bind]
            rw [linesSteps_append, hrun]
            simp only [Option.some_bind, linesSteps]
            rw [lineSteps_end_arr _ ind st2 (some j2) false st.stack hstk2]
            rfl
          · rw [hpath3, dropLast_append_ne _ (by simp)]
          · rw [hrefs2]
            simp
          · intro e he
            have h1 := hkeys e he
            rw [pathJoin_append_len] at h1
            have h2 : (pathJoin [['/']]).length = 1 := rfl
            omega
  | obj ms =>
    cases ms with
    | nil =>
      simp only [parse_json_lines] at hp
      injection hp with hp
      subst hp
      exact ⟨_, [], [], procLines_empty_obj r c0 st, rfl, by simp, by simp, by simp⟩
    | cons m ms =>
      unfold parse_json_lines at hp
      split at hp
      next e heq => cases hp
      next body heq =>
        injection hp with hp
        subst hp
        obtain ⟨st2, b2, E, newq, hrun, hstk2, hpath2, hEne, hrefs2, hkeys⟩ :=
          indexQobj (sortByKey (m :: ms)) ((m :: ms).length) 0 ind body heq
            (by simp only [sortByKey, List.length_insertionSort]; omega)
            (⟨(pathJoin (st.path ++ segOf st.stack), r, c0) :: st.refs,
              (st.path ++ segOf st.stack) ++ [['/']], (none, false) :: st.stack⟩ : IdxState)
            (r + 1) false st.stack rfl
        have hE2 : E ≠ [] := hEne (by
          intro hnil
          have h := congrArg List.length hnil
          simp only [sortByKey, List.length_insertionSort] at h
          simp at h)
        have hM : 2 ≤ ([['/']] ++ E).length := by
          rcases E with _ | ⟨e, es⟩
          · exact absurd rfl hE2
          · simp
        have hpath3 : st2.path = (st.path ++ segOf st.stack) ++ ([['/']] ++ E) := by
          rw [hpath2]
          simp
        have hstart : lineSteps r c0 st [JsonToken.object_start] =
            some ⟨(pathJoin (st.path ++ segOf st.stack), r, c0) :: st.refs,
              (st.path ++ segOf st.stack) ++ [['/']], (none, false) :: st.stack⟩ := by
          apply lineSteps_single
          rw [tokStep_object_start, startStep_eq]
          simp
        cases b2 with
        | true =>
          refine ⟨⟨st2.refs, st2.path.dropLast.dropLast, st.stack⟩,
            ([['/']] ++ E).dropLast.dropLast,
            newq, ?_, rfl, ?_, ?_, ?_⟩
          · rw [procLines_cons, hstart]
            simp only [Option.some_bind]
            rw [linesSteps_append, hrun]
            simp only [Option.some_bind, linesSteps]
            rw [lineSteps_end_obj _ ind st2 none true st.stack hstk2]
            rfl
          · rw [hpath3, drop2_append _ _ hM]
          · rw [hrefs2]
            simp
          · intro e he
            have h1 := hkeys e he
            rw [pathJoin_append_len] at h1
            have h2 : (pathJoin [['/']]).length = 1 := rfl
            omega
        | false =>
          refine ⟨⟨st2.refs, st2.path.dropLast, st.stack⟩,
            ([['/']] ++ E).dropLast,
            newq, ?_, rfl, ?_, ?_, ?_⟩
          · rw [procLines_cons, hstart]
            simp only [Option.some_bind]
            rw [linesSteps_append, hrun]
            simp only [Option.some_bind, linesSteps]
            rw [lineSteps_end_obj _ ind st2 none false st.stack hstk2]
            rfl
          · rw [hpath3, dropLast_append_ne _ (by simp)]
          · rw [hrefs2]
            simp
          · intro e he
            have h1 := hkeys e he
            rw [pathJoin_append_len] at h1
            have h2 : (pathJoin [['/']]).length = 1 := rfl
            omega
termination_by JValue.size v
decreasing_by all_goals (subst_vars; simp [JValue.size, sizeArr, sizeObj, sizeObj_sortByKey] <;> omega)

theorem indexQarr (items : List JValue) : ∀ (len i ind : Nat) (body : List JsonLine),
    parseArrItems items len i ind = Except.ok body →
    len = i + items.length →
    ∀ (st : IdxState) (r j : Nat) (b : Bool) (rest : List (Option Nat × Bool)),
      st.stack = (some j, b) :: rest →
      ∃ st2 j2 b2 E new,
        linesSteps r st body = some st2 ∧
        st2.stack = (some j2, b2) :: rest ∧
        st2.path = st.path ++ E ∧
        (items ≠ [] → E ≠ []) ∧
        st2.refs = new ++ st.refs ∧
        (∀ e ∈ new, (pathJoin st.path).length ≤ e.1.length) := by
  intro len i ind body hp hlen st r j b rest hst
  cases items with
  | nil =>
    simp only [parseArrItems] at hp
    injection hp with hp
    subst hp
    exact ⟨st, j, b, [], [], rfl, hst, by simp, by simp, by simp, by simp⟩
  | cons x xs =>
    unfold parseArrItems at hp
    split at hp
    next e heq => cases hp
    next children hchild =>
      have hchne : children ≠ [] := parse_json_lines_ne_nil x (ind + 4) children hchild
      obtain ⟨stc, Ec, newc, hrunc, hstkc, hpathc, hrefsc, hkeysc⟩ :=
        indexP x (ind + 4) children hchild st r
          (0 + (JsonToken.ws (ind + 4)).text.l.length)
          (fun _ => by rw [hst]; exact List.cons_ne_nil _ _)
      have hseg : segOf st.stack = [natChars j] := by
        rw [hst, segOf_cons]
        rfl
      obtain ⟨bc, hstkc2⟩ : ∃ bc, stc.stack = (some j, bc) :: rest := by
        rw [hstkc, hst]
        cases JValue.isScalar x
        · exact ⟨b, rfl⟩
        · exact ⟨true, rfl⟩
      have hpathc2 : stc.path = st.path ++ ([natChars j] ++ Ec) := by
        rw [hpathc, hseg]
        simp
      by_cases hcomma : i < len - 1
      · have hxs : xs ≠ [] := by
          intro hnil
          subst hnil
          simp at hlen
          omega
        simp only [if_pos hcomma] at hp
        split at hp
        next e heq2 => cases hp
        next restLines hrest =>
          injection hp with hp
          subst hp
          have hrunY : procLines r 0 st
              (prependTok (JsonToken.ws (ind + 4)) (modifyLastLine pushComma children)) =
              (procLines r (0 + (JsonToken.ws (ind + 4)).text.l.length) st children).bind
                commaStep := by
            rw [procLines_prepend _ _ _ _ _ _ (tokStep_ws r 0 st (ind + 4)) (by
              intro hnil
              have hl := congrArg List.length hnil
              rw [modifyLastLine_length] at hl
              exact hchne (List.length_eq_zero.mp (by simpa using hl)))]
            exact procLines_modLast_comma _ _ _ _ hchne
          obtain ⟨st2, j2, b2, E2, new2, hrun2, hstk2, hpath2, hEne2, hrefs2, hkeys2⟩ :=
            indexQarr xs len (i + 1) ind restLines hrest
              (by rw [List.length_cons] at hlen; omega)
              (⟨stc.refs, stc.path.dropLast, (some (j + 1), true) :: rest⟩ : IdxState)
              (r + (prependTok (JsonToken.ws (ind + 4))
                (modifyLastLine pushComma children)).length)
              (j + 1) true rest rfl
          have hstd1path : (⟨stc.refs, stc.path.dropLast,
              (some (j + 1), true) :: rest⟩ : IdxState).path =
              st.path ++ ([natChars j] ++ Ec).dropLast := by
            show stc.path.dropLast = _
            rw [hpathc2,
              dropLast_append_ne st.path (by simp : [natChars j] ++ Ec ≠ [])]
          refine ⟨st2, j2, b2, ([natChars j] ++ Ec).dropLast ++ E2,
            new2 ++ (newc ++ [(pathJoin (st.path ++ segOf st.stack), r,
              0 + (JsonToken.ws (ind + 4)).text.l.length)]),
            ?_, hstk2, ?_, ?_, ?_, ?_⟩
          · rw [linesSteps_append, ← procLines_eq_linesSteps r st, hrunY, hrunc]
            simp only [Option.some_bind]
            rw [commaStep_eq stc (some j) bc rest hstkc2]
            simp only [Option.some_bind, bumpAix]
            exact hrun2
          · rw [hpath2, hstd1path, List.append_assoc]
          · intro h3 hnil
            rcases List.append_eq_nil.mp hnil with ⟨h4, h5⟩
            exact hEne2 hxs h5
          · rw [hrefs2]
            show new2 ++ stc.refs = _
            rw [hrefsc]
            simp [List.append_assoc]
          · intro e he
            rcases List.mem_append.mp he with h3 | h3
            · have h4 := hkeys2 e h3
              rw [hstd1path, pathJoin_append_len] at h4
              omega
            · rcases List.mem_append.mp h3 with h4 | h4
              · have h5 := hkeysc e h4
                rw [pathJoin_append_len] at h5
                omega
              · have h5 : e = (pathJoin (st.path ++ segOf st.stack), r,
                    0 + (JsonToken.ws (ind + 4)).text.l.length) := by
                  simpa using h4
                subst h5
                show (pathJoin st.path).length ≤
                  (pathJoin (st.path ++ segOf st.stack)).length
                rw [pathJoin_append_len]
                omega
      · have hxs0 : xs.length = 0 := by
          rw [List.length_cons] at hlen
          omega
        have hxs : xs = [] := List.length_eq_zero.mp hxs0
        subst hxs
        simp only [if_neg hcomma, parseArrItems, List.append_nil] at hp
        injection hp with hp
        subst hp
        refine ⟨stc, j, bc, [natChars j] ++ Ec,
          newc ++ [(pathJoin (st.path ++ segOf st.stack), r,
            0 + (JsonToken.ws (ind + 4)).text.l.length)],
          ?_, hstkc2, hpathc2, ?_, ?_, ?_⟩
        · rw [← procLines_eq_linesSteps r st,
            procLines_prepend _ _ _ _ _ _ (tokStep_ws r 0 st (ind + 4)) hchne]
          exact hrunc
        · intro h3
          exact List.cons_ne_nil _ _
        · exact hrefsc
        · intro e he
          rcases List.mem_append.mp he with h3 | h3
          · have h4 := hkeysc e h3
            rw [pathJoin_append_len] at h4
            omega
          · have h4 : e = (pathJoin (st.path ++ segOf st.stack), r,
                0 + (JsonToken.ws (ind + 4)).text.l.length) := by
              simpa using h3
            subst h4
            show (pathJoin st.path).length ≤
              (pathJoin (st.path ++ segOf st.stack)).length
            rw [pathJoin_append_len]
            omega
termination_by sizeArr items
decreasing_by all_goals (subst_vars; simp [JValue.size, sizeArr, sizeObj, sizeObj_sortByKey] <;> omega)

theorem indexQobj (items : List (List Char × JValue)) :
    ∀ (len i ind : Nat) (body : List JsonLine),
    parseObjItems items len i ind = Except.ok body →
    len = i + items.length →
    ∀ (st : IdxState) (r : Nat) (b : Bool) (rest : List (Option Nat × Bool)),
      st.stack = (none, b) :: rest →
      ∃ st2 b2 E new,
        linesSteps r st body = some st2 ∧
        st2.stack = (none, b2) :: rest ∧
        st2.path = st.path ++ E ∧
        (items ≠ [] → E ≠ []) ∧
        st2.refs = new ++ st.refs ∧
        (∀ e ∈ new, (pathJoin st.path).length ≤ e.1.length) := by
  intro len i ind body hp hlen st r b rest hst
  cases hitems : items with
  | nil =>
    subst hitems
    simp only [parseObjItems] at hp
    injection hp with hp
    subst hp
    exact ⟨st, b, [], [], rfl, hst, by simp, by simp, by simp, by simp⟩
  | cons m ms =>
    rw [hitems] at hp hlen
    obtain ⟨k, v⟩ := m
    unfold parseObjItems at hp
    split at hp
    next e heq => cases hp
    next children hchild =>
      split at hp
      next e heq2 => cases hp
      next keyTok hkey =>
        have hchne : children ≠ [] := parse_json_lines_ne_nil v (ind + 4) children hchild
        have hne1 : prependTok (JsonToken.ws 1) children ≠ [] :=
          prependTok_ne _ _ hchne
        have hne2 : prependTok JsonToken.colon (prependTok (JsonToken.ws 1) children) ≠ [] :=
          prependTok_ne _ _ hne1
        have hne3 : prependTok keyTok (prependTok JsonToken.colon
            (prependTok (JsonToken.ws 1) children)) ≠ [] :=
          prependTok_ne _ _ hne2
        have hne4 : prependTok (JsonToken.ws (ind + 4)) (prependTok keyTok
            (prependTok JsonToken.colon (prependTok (JsonToken.ws 1) children))) ≠ [] :=
          prependTok_ne _ _ hne3
        obtain ⟨stc, Ec, newc, hrunc, hstkc, hpathc, hrefsc, hkeysc⟩ :=
          indexP v (ind + 4) children hchild
            (⟨st.refs, st.path ++ [k], st.stack⟩ : IdxState) r
            (0 + (JsonToken.ws (ind + 4)).text.l.length + keyTok.text.l.length +
              JsonToken.colon.text.l.length + (JsonToken.ws 1).text.l.length)
            (fun _ => by
              show st.stack ≠ []
              rw [hst]
              exact List.cons_ne_nil _ _)
        have hsegK : segOf (⟨st.refs, st.path ++ [k], st.stack⟩ : IdxState).stack = [] := by
          show segOf st.stack = []
          rw [hst, segOf_cons]
          rfl
        simp only [hsegK, List.append_nil] at hpathc hrefsc hkeysc
        have hstkK : (⟨st.refs, st.path ++ [k], st.stack⟩ : IdxState).stack =
            (none, b) :: rest := hst
        rw [hstkK] at hstkc
        obtain ⟨bc, hstkc2⟩ : ∃ bc, stc.stack = (none, bc) :: rest := by
          rw [hstkc]
          cases JValue.isScalar v
          · exact ⟨b, rfl⟩
          · exact ⟨true, rfl⟩
        have hpathc2 : stc.path = st.path ++ ([k] ++ Ec) := by
          rw [hpathc]
          simp
        by_cases hcomma : i < len - 1
        · have hms : ms ≠ [] := by
            intro hnil
            subst hnil
            simp at hlen
            omega
          simp only [if_pos hcomma] at hp
          split at hp
          next e heq3 => cases hp
          next restLines hrest =>
            injection hp with hp
            subst hp
            have hrunY : procLines r 0 st
                (modifyLastLine pushComma (prependTok (JsonToken.ws (ind + 4))
                  (prependTok keyTok (prependTok JsonToken.colon
                    (prependTok (JsonToken.ws 1) children))))) =
                (procLines r (0 + (JsonToken.ws (ind + 4)).text.l.length +
                    keyTok.text.l.length + JsonToken.colon.text.l.length +
                    (JsonToken.ws 1).text.l.length)
                  (⟨st.refs, st.path ++ [k], st.stack⟩ : IdxState) children).bind
                  commaStep := by
              rw [procLines_modLast_comma _ _ _ _ hne4,
                procLines_prepend _ _ _ _ _ _ (tokStep_ws r 0 st (ind + 4)) hne3,
                procLines_prepend _ _ _ _ _ _ (tokStep_key _ _ st hkey) hne2,
                procLines_prepend _ _ _ _ _ _ (tokStep_colon _ _ _) hne1,
                procLines_prepend _ _ _ _ _ _ (tokStep_ws _ _ _ 1) hchne]
            obtain ⟨st2, b2, E2, new2, hrun2, hstk2, hpath2, hEne2, hrefs2, hkeys2⟩ :=
              indexQobj ms len (i + 1) ind restLines hrest
                (by rw [List.length_cons] at hlen; omega)
                (⟨stc.refs, stc.path.dropLast, (none, true) :: rest⟩ : IdxState)
                (r + (modifyLastLine pushComma (prependTok (JsonToken.ws (ind + 4))
                  (prependTok keyTok (prependTok JsonToken.colon
                    (prependTok (JsonToken.ws 1) children))))).length)
                true rest rfl
            have hstd1path : (⟨stc.refs, stc.path.dropLast,
                (none, true) :: rest⟩ : IdxState).path =
                st.path ++ ([k] ++ Ec).dropLast := by
              show stc.path.dropLast = _
              rw [hpathc2,
                dropLast_append_ne st.path (by simp : [k] ++ Ec ≠ [])]
            refine ⟨st2, b2, ([k] ++ Ec).dropLast ++ E2,
              new2 ++ (newc ++ [(pathJoin (st.path ++ [k]), r,
                0 + (JsonToken.ws (ind + 4)).text.l.length + keyTok.text.l.length +
                  JsonToken.colon.text.l.length + (JsonToken.ws 1).text.l.length)]),
              ?_, hstk2, ?_, ?_, ?_, ?_⟩
            · rw [linesSteps_append, ← procLines_eq_linesSteps r st, hrunY, hrunc]
              simp only [Option.some_bind]
              rw [commaStep_eq stc none bc rest hstkc2]
              simp only [Option.some_bind, bumpAix]
              exact hrun2
            · rw [hpath2, hstd1path, List.append_assoc]
            · intro h3 hnil
              rcases List.append_eq_nil.mp hnil with ⟨h4, h5⟩
              exact hEne2 hms h5
            · rw [hrefs2]
              show new2 ++ stc.refs = _
              rw [hrefsc]
              simp [List.append_assoc]
            · intro e he
              rcases List.mem_append.mp he with h3 | h3
              · have h4 := hkeys2 e h3
                rw [hstd1path, pathJoin_append_len] at h4
                omega
              · rcases List.mem_append.mp h3 with h4 | h4
                · have h5 := hkeysc e h4
                  rw [pathJoin_append_len] at h5
                  omega
                · have h5 : e = (pathJoin (st.path ++ [k]), r,
                      0 + (JsonToken.ws (ind + 4)).text.l.length + keyTok.text.l.length +
                        JsonToken.colon.text.l.length + (JsonToken.ws 1).text.l.length) := by
                    simpa using h4
                  subst h5
                  show (pathJoin st.path).length ≤ (pathJoin (st.path ++ [k])).length
                  rw [pathJoin_append_len]
                  omega
        · have hms0 : ms.length = 0 := by
            rw [List.length_cons] at hlen
            omega
          have hms : ms = [] := List.length_eq_zero.mp hms0
          subst hms
          simp only [if_neg hcomma, parseObjItems, List.append_nil] at hp
          injection hp with hp
          subst hp
          refine ⟨stc, bc, [k] ++ Ec,
            newc ++ [(pathJoin (st.path ++ [k]), r,
              0 + (JsonToken.ws (ind + 4)).text.l.length + keyTok.text.l.length +
                JsonToken.colon.text.l.length + (JsonToken.ws 1).text.l.length)],
            ?_, hstkc2, hpathc2, ?_, ?_, ?_⟩
          · rw [← procLines_eq_linesSteps r st,
              procLines_prepend _ _ _ _ _ _ (tokStep_ws r 0 st (ind + 4)) hne3,
              procLines_prepend _ _ _ _ _ _ (tokStep_key _ _ st hkey) hne2,
              procLines_prepend _ _ _ _ _ _ (tokStep_colon _ _ _) hne1,
              procLines_prepend _ _ _ _ _ _ (tokStep_ws _ _ _ 1) hchne]
            exact hrunc
          · intro h3
            exact List.cons_ne_nil _ _
          · exact hrefsc
          · intro e he
            rcases List.mem_append.mp he with h3 | h3
            · have h4 := hkeysc e h3
              rw [pathJoin_append_len] at h4
              omega
            · have h4 : e = (pathJoin (st.path ++ [k]), r,
                  0 + (JsonToken.ws (ind + 4)).text.l.length + keyTok.text.l.length +
                    JsonToken.colon.text.l.length + (JsonToken.ws 1).text.l.length) := by
                simpa using h3
              subst h4
              show (pathJoin st.path).length ≤ (pathJoin (st.path ++ [k])).length
              rw [pathJoin_append_len]
              omega
termination_by sizeObj items
decreasing_by all_goals (subst_vars; try (injection hitems with h1 h2; subst h1); simp [JValue.size, sizeArr, sizeObj, sizeObj_sortByKey] <;> omega)
end

/-- Looking up `"#"` skips every entry whose key has length at least two and
finds the root entry. -/
lemma lookup_longer (p : Nat × Nat) (tail : List (List Char × Nat × Nat)) :
    ∀ (new : List (List Char × Nat × Nat)),
      (∀ e ∈ new, 2 ≤ e.1.length) →
      List.lookup ['#'] ((new ++ [(['#'], p)]) ++ tail) = some p := by
  intro new
  induction new with
  | nil =>
    intro _
    simp [List.lookup]
  | cons e es ih =>
    intro hk
    obtain ⟨k1, p1⟩ := e
    have h2 : 2 ≤ k1.length := hk (k1, p1) (List.mem_cons_self _ _)
    have hne : (['#'] == k1) = false := by
      rw [beq_eq_false_iff_ne]
      intro hEq
      rw [← hEq] at h2
      simp at h2
    simp only [List.cons_append, List.lookup, hne]
    exact ih (fun e2 he2 => hk e2 (List.mem_cons_of_mem _ he2))

/-- C2 (amended): for every tokenized document whose root value is a container
(array or object), `build_index` succeeds and its map contains the root key
`"#"` (not `"#/"`: lookups strip the trailing slash before consulting the
map), and that key maps to `(0, 0)`.  For scalar-rooted documents the indexer
panics (`jindex` is `none`), so no map is produced at all. -/
theorem index_root_key (v : JValue) (ind : Nat) (lines : List JsonLine)
    (hv : v.isScalar = false) (hp : parse_json_lines v ind = Except.ok lines) :
    ∃ m, jindex lines = some m ∧ List.lookup ['#'] m = some (0, 0) := by
  obtain ⟨st2, E, new, hrun, hstk, hpath, hrefs, hkeys⟩ :=
    indexP v ind lines hp (⟨[], [['#']], []⟩ : IdxState) 0 0
      (by intro h; rw [hv] at h; cases h)
  have hlin : linesSteps 0 (⟨[], [['#']], []⟩ : IdxState) lines = some st2 := by
    rw [← procLines_eq_linesSteps]
    exact hrun
  refine ⟨st2.refs, ?_, ?_⟩
  · unfold jindex
    rw [hlin]
  · rw [hrefs]
    exact lookup_longer (0, 0) _ new (fun e he => by
      have h1 := hkeys e he
      have h2 : (pathJoin ((⟨[], [['#']], []⟩ : IdxState).path ++
          segOf (⟨[], [['#']], []⟩ : IdxState).stack)).length = 1 := rfl
      omega)

/-- Witness for C2: the empty object document is container-rooted, its index
is built, and the root key `"#"` maps to `(0, 0)`. -/
theorem index_root_key_witness :
    (JValue.obj []).isScalar = false ∧
    ∃ m, jindex [JsonLine.mk [JsonToken.object_start, JsonToken.object_end]] = some m ∧
      List.lookup ['#'] m = some (0, 0) :=
  ⟨rfl, index_root_key (JValue.obj []) 0 _ rfl (by simp [parse_json_lines])⟩

end JV
